import Mathlib

/-!
Verification of the document-outline reconstruction pipeline
(`process_pdfs.py`): body-style estimation, heading classification,
title selection, section partitioning and outline assembly.

The Python source is embedded shallowly:

* a PDF text span becomes a `Fragment` record; the float-valued font
  sizes and vertical positions are modelled as integers — the source
  only ever compares these scalars, takes maxima and modes of them, and
  adds the constant 1, so every property proved below is an
  order-and-translation fact that does not depend on fractional values;
  strings are modelled over their character lists, with the ASCII
  meanings of the character classes used by the source (`\s`, `\d`,
  `[A-Z]`, `str.isupper`, `str.lower`, `str.split`);
* `statistics.mode` (Python >= 3.8) and the `Counter`-based fallback in
  the `except` branch agree: both return the value with the highest
  occurrence count, breaking ties by insertion order of first
  occurrence; `pyMode` models exactly that;
* the regex `^\s*(\d+(?:\.\d+)*\.?|[A-Z]\.)\s+` is embedded as the
  deterministic matcher `headingPatternMatch` (greedy consumption is
  equivalent to backtracking here because no consumed character can be
  whitespace); the declarative pattern `EnumMatch` is proved equivalent;
* `fitz.open` (the external rendering collaborator) is modelled by an
  `OpenResult` value that either yields the fragment stream or fails
  with a message.
-/

namespace PdfOutline

/-! ### Character-level models of the Python string operations -/

/-- ASCII whitespace, the characters matched by the regex class `\s`
and by `str.split()`/`str.strip()` on ASCII text. -/
def isSpaceB (c : Char) : Bool :=
  decide (c.toNat = 32 ∨ c.toNat = 9 ∨ c.toNat = 10 ∨ c.toNat = 13 ∨
    c.toNat = 11 ∨ c.toNat = 12)

/-- ASCII decimal digit, the regex class `\d` on ASCII text. -/
def isDigitB (c : Char) : Bool :=
  decide (48 ≤ c.toNat ∧ c.toNat ≤ 57)

/-- ASCII uppercase letter, the regex class `[A-Z]`. -/
def isUpperB (c : Char) : Bool :=
  decide (65 ≤ c.toNat ∧ c.toNat ≤ 90)

/-- ASCII lowercase letter. -/
def isLowerB (c : Char) : Bool :=
  decide (97 ≤ c.toNat ∧ c.toNat ≤ 122)

/-- ASCII model of `str.lower` applied characterwise. -/
def toLowerB (c : Char) : Char :=
  if isUpperB c then Char.ofNat (c.toNat + 32) else c

/-- `str.isupper()`: at least one cased character, and no cased
character is lowercase (ASCII model). -/
def pyIsUpper (s : List Char) : Bool :=
  s.any (fun c => isUpperB c || isLowerB c) && s.all (fun c => !isLowerB c)

/-- Number of maximal runs of non-whitespace characters:
`len(text.split())`. The boolean argument records whether the scan is
currently inside a word. -/
def wcAux : List Char → Bool → Nat
  | [], _ => 0
  | c :: rest, inw =>
    if isSpaceB c then wcAux rest false
    else if inw then wcAux rest true else 1 + wcAux rest true

/-- `len(text.split())`. -/
def wordCount (s : List Char) : Nat := wcAux s false

/-- `pat` occurs at the start of `s`. -/
def leadMatch : List Char → List Char → Bool
  | [], _ => true
  | _ :: _, [] => false
  | p :: ps, c :: cs => p == c && leadMatch ps cs

/-- `pat in s` for strings (contiguous subsequence test). -/
def containsSeq (pat : List Char) : List Char → Bool
  | [] => leadMatch pat []
  | c :: rest => leadMatch pat (c :: rest) || containsSeq pat rest

/-! ### The heading-numbering regex

`re.compile(r"^\s*(\d+(?:\.\d+)*\.?|[A-Z]\.)\s+").match(text)`. -/

/-- Consume the `(?:\.\d+)*` part: repeatedly a dot followed by a
nonempty run of digits. The fuel argument only bounds the recursion
depth; every application in this development supplies enough fuel
(each step consumes at least two characters). -/
def skipGroupsFuel : Nat → List Char → List Char
  | 0, l => l
  | fuel + 1, l =>
    match l with
    | c :: c2 :: rest =>
      if c = '.' ∧ isDigitB c2 = true then
        skipGroupsFuel fuel ((c2 :: rest).dropWhile isDigitB)
      else c :: c2 :: rest
    | other => other

/-- Consume the `(?:\.\d+)*` part of the regex. -/
def skipGroups (l : List Char) : List Char := skipGroupsFuel l.length l

/-- Whether `heading_pattern.match(text)` succeeds: optional leading
whitespace, then either dot-separated digit groups with an optional
trailing dot, or a single uppercase letter followed by a dot, then at
least one whitespace character. -/
def headingPatternMatch (s : List Char) : Bool :=
  match s.dropWhile isSpaceB with
  | [] => false
  | c :: rest =>
    if isDigitB c then
      match skipGroups (rest.dropWhile isDigitB) with
      | [] => false
      | c2 :: rest2 =>
        if c2 = '.' then
          match rest2 with
          | [] => false
          | d :: _ => isSpaceB d
        else isSpaceB c2
    else if isUpperB c then
      match rest with
      | [] => false
      | c2 :: rest2 =>
        if c2 = '.' then
          match rest2 with
          | [] => false
          | d :: _ => isSpaceB d
        else false
    else false

/-- A nonempty all-digit character group. -/
def digitsGroup (g : List Char) : Prop :=
  g ≠ [] ∧ ∀ x ∈ g, isDigitB x = true

/-- Declarative reading of the enumeration pattern, stated from the
specification text: after optional leading whitespace the text starts
with either one or more digit groups separated by dots with an optional
trailing dot, or a single uppercase letter followed by a dot, followed
by a required whitespace character. -/
def EnumMatch (s : List Char) : Prop :=
  ∃ ws core d rest,
    (∀ x ∈ ws, isSpaceB x = true) ∧ isSpaceB d = true ∧
    s = ws ++ core ++ d :: rest ∧
    ((∃ groups tl, groups ≠ [] ∧ (∀ g ∈ groups, digitsGroup g) ∧
        (tl = ([] : List Char) ∨ tl = ['.']) ∧
        core = List.intercalate ['.'] groups ++ tl) ∨
      (∃ u, isUpperB u = true ∧ core = [u, '.']))

/-- The shape at which `skipGroups` makes no further progress. -/
def parserStops (l : List Char) : Prop :=
  match l with
  | [] => True
  | c :: t =>
    isDigitB c = false ∧
      (c = '.' → match t with
        | c2 :: _ => isDigitB c2 = false
        | [] => True)

/-! ### Data model -/

/-- One extracted text span: `{text, font_size, font_name, page, y_pos}`. -/
structure Fragment where
  text : String
  font_size : ℤ
  font_name : String
  page : Nat
  y_pos : ℤ
deriving DecidableEq

/-- `{level, text, page, y_pos}` as produced by the classifier. -/
structure Heading where
  level : String
  text : String
  page : Nat
  y_pos : ℤ
deriving DecidableEq

/-- `{heading_text, heading_level, page, content}` as produced by the
partitioner. -/
structure Section where
  heading_text : String
  heading_level : String
  page : Nat
  content : String
deriving DecidableEq

/-- One element of the final `outline` list: `{level, text, page}`. -/
structure OutlineEntry where
  level : String
  text : String
  page : Nat
deriving DecidableEq

/-- Result of asking the external rendering collaborator to open a
document and extract its fragment stream. -/
inductive OpenResult where
  | ok (blocks : List Fragment)
  | failed (msg : String)

/-- The outbound result shape of `generate_outline_from_pdf`. -/
inductive OutlineResult where
  | error (msg : String)
  | success (title : String) (outline : List OutlineEntry) (sections : List Section)
deriving DecidableEq

/-! ### Body-style estimation (`get_body_text_style`) -/

/-- Occurrence count of `x` in `l`. -/
def countOcc (x : ℤ) (l : List ℤ) : Nat :=
  (l.filter (fun y => decide (y = x))).length

/-- The largest occurrence count of any element of `l`. -/
def maxCount (l : List ℤ) : Nat :=
  (l.map (fun x => countOcc x l)).foldr max 0

/-- `statistics.mode` for Python >= 3.8 (equivalently the
`Counter`-based fallback): the first element, in insertion order, whose
occurrence count is maximal. -/
def pyMode (l : List ℤ) : ℤ :=
  match l.find? (fun x => decide (countOcc x l = maxCount l)) with
  | some x => x
  | none => 0

/-- `get_body_text_style(blocks)`: the mode of the font sizes below 20,
falling back to all font sizes when none is below 20, and `(12, "")`
for an empty fragment list. -/
def get_body_text_style (blocks : List Fragment) : ℤ × String :=
  if blocks = [] then (12, "")
  else
    let sizesR := (blocks.filter (fun b => decide (b.font_size < 20))).map Fragment.font_size
    let sizes := if sizesR = [] then blocks.map Fragment.font_size else sizesR
    (pyMode sizes, "")

/-! ### Title selection (lines 50-58 of the source) -/

/-- `max` over a list of rationals (`max(...)` in Python; only applied
to nonempty lists by the source). -/
def maxQ : List ℤ → ℤ
  | [] => 0
  | x :: rest => rest.foldl max x

/-- The title: the first first-page fragment whose font size equals the
maximum font size on page 1, or `none` when page 1 has no fragments. -/
def titleOf (blocks : List Fragment) : Option (String × Nat) :=
  let first_blocks := blocks.filter (fun b => decide (b.page = 1))
  if first_blocks = [] then none
  else
    let max_font := maxQ (first_blocks.map Fragment.font_size)
    match first_blocks.find? (fun b => decide (b.font_size = max_font)) with
    | some b => some (b.text, 1)
    | none => none

/-! ### Heading scoring and classification -/

/-- The cumulative heading score of a fragment: the sum of the five
independent criteria of the source. -/
def scoreOf (body_size : ℤ) (b : Fragment) : Nat :=
  (if b.font_size > body_size + 1 then 2 else 0) +
  (if containsSeq "bold".data (b.font_name.data.map toLowerB) then 1 else 0) +
  (if headingPatternMatch b.text.data then 5 else 0) +
  (if wordCount b.text.data < 15 then 1 else 0) +
  (if pyIsUpper b.text.data && decide (b.text.length > 2) then 1 else 0)

/-- The `continue` guard: the fragment is on page 1 and its text equals
the selected title text. -/
def skipAsTitle (title_info : Option (String × Nat)) (b : Fragment) : Bool :=
  match title_info with
  | none => false
  | some (tt, _) => decide (b.page = 1) && decide (b.text = tt)

/-- The candidate list: fragments that are not skipped as the title and
score at least 4. -/
def candidatesOf (blocks : List Fragment) (body_size : ℤ)
    (title_info : Option (String × Nat)) : List Fragment :=
  blocks.filter (fun b => !(skipAsTitle title_info b) && decide (scoreOf body_size b ≥ 4))

/-- Descending order on rationals, used to sort candidate font sizes. -/
def geQ (a b : ℤ) : Prop := b ≤ a

instance : DecidableRel geQ := fun a b => inferInstanceAs (Decidable (b ≤ a))

instance : IsTotal ℤ geQ := ⟨fun a b => le_total b a⟩

instance : IsTrans ℤ geQ := ⟨fun _ _ _ h1 h2 => le_trans h2 h1⟩

/-- `sorted({c["font_size"] for c in candidates}, reverse=True)`: the
distinct candidate font sizes in descending order. -/
def distinctSizesDesc (cands : List Fragment) : List ℤ :=
  List.insertionSort geQ (cands.map Fragment.font_size).dedup

/-- `{size: f"H{i+1}" for i, size in enumerate(sizes[:3])}` as an
association list. -/
def styleMapOf (sizes : List ℤ) : List (ℤ × String) :=
  (sizes.take 3).zip ["H1", "H2", "H3"]

/-- Association-list lookup (`dict.get`). -/
def lookupQ : List (ℤ × String) → ℤ → Option String
  | [], _ => none
  | (k, v) :: rest, q => if k = q then some v else lookupQ rest q

/-- Build the heading record for a candidate, or `none` when its font
size has no level in the style map. -/
def projectHeading (smap : List (ℤ × String)) (b : Fragment) : Option Heading :=
  (lookupQ smap b.font_size).map (fun lvl => ⟨lvl, b.text, b.page, b.y_pos⟩)

/-- Ascending lexicographic order on `(page, y_pos)` pairs (Python
tuple comparison, non-strict). -/
def pLE (a b : Nat × ℤ) : Prop := a.1 < b.1 ∨ (a.1 = b.1 ∧ a.2 ≤ b.2)

/-- Strict lexicographic order on `(page, y_pos)` pairs. -/
def pLT (a b : Nat × ℤ) : Prop := a.1 < b.1 ∨ (a.1 = b.1 ∧ a.2 < b.2)

/-- The `(page, y_pos)` sort key of a heading. -/
def hKey (h : Heading) : Nat × ℤ := (h.page, h.y_pos)

/-- `sorted(headings, key=lambda h: (h["page"], h["y_pos"]))` ordering. -/
def hLE (a b : Heading) : Prop := pLE (hKey a) (hKey b)

instance : DecidableRel hLE := fun _ _ =>
  inferInstanceAs (Decidable (_ < _ ∨ (_ = _ ∧ _ ≤ _)))

instance : IsTotal Heading hLE :=
  ⟨fun a b => by
    unfold hLE pLE
    rcases Nat.lt_trichotomy (hKey a).1 (hKey b).1 with h | h | h
    · exact Or.inl (Or.inl h)
    · rcases le_total (hKey a).2 (hKey b).2 with h2 | h2
      · exact Or.inl (Or.inr ⟨h, h2⟩)
      · exact Or.inr (Or.inr ⟨h.symm, h2⟩)
    · exact Or.inr (Or.inl h)⟩

instance : IsTrans Heading hLE :=
  ⟨fun a b c h1 h2 => by
    unfold hLE pLE at h1 h2 ⊢
    rcases h1 with h1 | ⟨e1, l1⟩
    · rcases h2 with h2 | ⟨e2, l2⟩
      · exact Or.inl (lt_trans h1 h2)
      · exact Or.inl (e2 ▸ h1)
    · rcases h2 with h2 | ⟨e2, l2⟩
      · exact Or.inl (e1 ▸ h2)
      · exact Or.inr ⟨e1.trans e2, le_trans l1 l2⟩⟩

instance (p q : Nat × ℤ) : Decidable (pLT p q) :=
  inferInstanceAs (Decidable (_ < _ ∨ (_ = _ ∧ _ < _)))

instance (p q : Nat × ℤ) : Decidable (pLE p q) :=
  inferInstanceAs (Decidable (_ < _ ∨ (_ = _ ∧ _ ≤ _)))

/-- `identify_and_classify_headings(blocks, body_size)`: returns the
sorted heading list and the title info. -/
def identify_and_classify_headings (blocks : List Fragment) (body_size : ℤ) :
    List Heading × Option (String × Nat) :=
  let title_info := titleOf blocks
  let candidates := candidatesOf blocks body_size title_info
  if candidates = [] then ([], title_info)
  else
    let smap := styleMapOf (distinctSizesDesc candidates)
    let headings := candidates.filterMap (projectHeading smap)
    (List.insertionSort hLE headings, title_info)

/-! ### Section partitioning (`group_text_into_sections`) -/

/-- `after_start`: the block lies strictly after the section's opening
heading in `(page, y_pos)` order. -/
def afterStartB (h : Heading) (b : Fragment) : Bool :=
  decide (b.page > h.page) || (decide (b.page = h.page) && decide (b.y_pos > h.y_pos))

/-- `before_end`: the block lies strictly before the next heading; for
the last heading the bound is `(inf, inf)` and every block qualifies. -/
def beforeEndB (nxt : Option Heading) (b : Fragment) : Bool :=
  match nxt with
  | none => true
  | some n => decide (b.page < n.page) || (decide (b.page = n.page) && decide (b.y_pos < n.y_pos))

/-- `is_heading`: the block's `(text, page)` pair matches some heading. -/
def isHeadingBlockB (headings : List Heading) (b : Fragment) : Bool :=
  headings.any (fun h => decide (h.text = b.text) && decide (h.page = b.page))

/-- The blocks contributing to one section's content, in stream order. -/
def sectionContentFrags (blocks : List Fragment) (all : List Heading)
    (h : Heading) (nxt : Option Heading) : List Fragment :=
  blocks.filter (fun b => afterStartB h b && beforeEndB nxt b && !(isHeadingBlockB all b))

/-- One section record: heading fields plus the newline-joined content. -/
def sectionFor (blocks : List Fragment) (all : List Heading)
    (h : Heading) (nxt : Option Heading) : Section :=
  { heading_text := h.text, heading_level := h.level, page := h.page,
    content := String.intercalate "\n" ((sectionContentFrags blocks all h nxt).map Fragment.text) }

/-- The loop over `enumerate(headings)`: each heading paired with its
successor (or none for the last). -/
def sectionsAux (blocks : List Fragment) (all : List Heading) : List Heading → List Section
  | [] => []
  | h :: rest => sectionFor blocks all h rest.head? :: sectionsAux blocks all rest

/-- `group_text_into_sections(blocks, headings)`. -/
def group_text_into_sections (blocks : List Fragment) (headings : List Heading) : List Section :=
  match headings with
  | [] => []
  | _ => sectionsAux blocks headings headings

/-- The per-section content fragment lists (the same loop before the
string join), used to state membership properties. -/
def sectionFragLists (blocks : List Fragment) (all : List Heading) :
    List Heading → List (List Fragment)
  | [] => []
  | h :: rest => sectionContentFrags blocks all h rest.head? :: sectionFragLists blocks all rest

/-! ### Outline assembly (`generate_outline_from_pdf`) -/

/-- `generate_outline_from_pdf`: error shape on open failure, empty
shape for an empty fragment stream, otherwise the success shape. -/
def generate_outline_from_pdf (openRes : OpenResult) : OutlineResult :=
  match openRes with
  | OpenResult.failed e => OutlineResult.error ("Could not open PDF: " ++ e)
  | OpenResult.ok blocks =>
    if blocks = [] then OutlineResult.success "" [] []
    else
      let body_size := (get_body_text_style blocks).1
      let pr := identify_and_classify_headings blocks body_size
      let title := match pr.2 with
        | some t => t.1
        | none => "Untitled"
      OutlineResult.success title
        (pr.1.map (fun h => OutlineEntry.mk h.level h.text h.page))
        (group_text_into_sections blocks pr.1)

/-- The mode contract from the specification: a member of the list with
maximal occurrence count, preceded only by values of strictly smaller
count (first-occurrence tie-break). -/
def modeSpec (l : List ℤ) (m : ℤ) : Prop :=
  m ∈ l ∧ (∀ x ∈ l, countOcc x l ≤ countOcc m l) ∧
    ∃ l1 l2, l = l1 ++ m :: l2 ∧ ∀ y ∈ l1, countOcc y l < countOcc m l

/-- Shared sample input used to witness the quantified claims on a
concrete fragment list. -/
def sampleBlocks : List Fragment :=
  [⟨"Intro", 14, "Helvetica", 1, 10⟩,
   ⟨"1. Background", 18, "Helvetica-Bold", 1, 50⟩,
   ⟨"body text here", 12, "Helvetica", 1, 80⟩,
   ⟨"1.1 Detail", 16, "Helvetica-Bold", 1, 120⟩,
   ⟨"more body", 12, "Helvetica", 1, 150⟩]

/-- The C7 counterexample input: "stray" shares the exact
`(page, y_pos)` of the derived heading "1. Heading" without being a
heading, so it lands in no section and matches no heading pair. -/
def cex7 : List Fragment :=
  [⟨"Big Title", 30, "Helv", 1, 0⟩,
   ⟨"1. Heading", 20, "Helv", 1, 10⟩,
   ⟨"stray", 10, "Helv", 1, 10⟩,
   ⟨"ten", 10, "Helv", 1, 20⟩]

/-! ### Unfolding lemmas for the fuel-based `skipGroups` -/

theorem dropWhile_length_le (p : Char → Bool) (l : List Char) :
    (l.dropWhile p).length ≤ l.length := by
  induction l with
  | nil => simp [List.dropWhile]
  | cons a t ih =>
    rw [List.dropWhile_cons]
    split
    · exact le_trans ih (Nat.le_succ _)
    · exact le_refl _

theorem skipGroupsFuel_congr : ∀ (f1 f2 : Nat) (l : List Char),
    l.length ≤ f1 → l.length ≤ f2 → skipGroupsFuel f1 l = skipGroupsFuel f2 l := by
  intro f1
  induction f1 with
  | zero =>
    intro f2 l h1 _
    have hl : l = [] := List.length_eq_zero.mp (Nat.le_zero.mp h1)
    subst hl
    cases f2 with
    | zero => rfl
    | succ f2 => rfl
  | succ f1 ih =>
    intro f2 l h1 h2
    match l with
    | [] =>
      cases f2 with
      | zero => rfl
      | succ f2 => rfl
    | [c] =>
      cases f2 with
      | zero => simp at h2
      | succ f2 => rfl
    | c :: c2 :: rest =>
      cases f2 with
      | zero => simp at h2
      | succ f2 =>
        simp only [skipGroupsFuel]
        split
        · have hd := dropWhile_length_le isDigitB (c2 :: rest)
          simp only [List.length_cons] at h1 h2 hd
          exact ih f2 _ (by omega) (by omega)
        · rfl

theorem skipGroupsFuel_succ (fuel : Nat) (l : List Char) :
    skipGroupsFuel (fuel + 1) l =
      match l with
      | c :: c2 :: rest =>
        if c = '.' ∧ isDigitB c2 = true then
          skipGroupsFuel fuel ((c2 :: rest).dropWhile isDigitB)
        else c :: c2 :: rest
      | other => other := rfl

/-- The natural unfolding of `skipGroups`. -/
theorem skipGroups_eq (l : List Char) :
    skipGroups l =
      match l with
      | c :: c2 :: rest =>
        if c = '.' ∧ isDigitB c2 = true then
          skipGroups ((c2 :: rest).dropWhile isDigitB)
        else c :: c2 :: rest
      | other => other := by
  match l with
  | [] => rfl
  | [c] => rfl
  | c :: c2 :: rest =>
    show skipGroupsFuel (rest.length + 1 + 1) (c :: c2 :: rest) =
      (if c = '.' ∧ isDigitB c2 = true then
          skipGroups ((c2 :: rest).dropWhile isDigitB)
        else c :: c2 :: rest)
    rw [skipGroupsFuel_succ]
    show (if c = '.' ∧ isDigitB c2 = true then
        skipGroupsFuel (rest.length + 1) ((c2 :: rest).dropWhile isDigitB)
      else c :: c2 :: rest) = _
    split
    · exact skipGroupsFuel_congr (rest.length + 1) ((c2 :: rest).dropWhile isDigitB).length
        ((c2 :: rest).dropWhile isDigitB)
        (by simpa using dropWhile_length_le isDigitB (c2 :: rest)) (le_refl _)
    · rfl

/-! ### Helper lemmas about `find?`, maxima and modes -/

theorem find?_split {α : Type} {p : α → Bool} {l : List α} {x : α}
    (h : l.find? p = some x) :
    ∃ l1 l2, l = l1 ++ x :: l2 ∧ ∀ y ∈ l1, p y = false := by
  induction l with
  | nil => simp at h
  | cons a t ih =>
    by_cases ha : p a
    · rw [List.find?_cons_of_pos _ ha] at h
      exact ⟨[], t, by simp [Option.some_inj.mp h], by simp⟩
    · have ha' : p a = false := by simpa using ha
      rw [List.find?_cons_of_neg _ (by simp [ha'])] at h
      obtain ⟨l1, l2, heq, hall⟩ := ih h
      exact ⟨a :: l1, l2, by simp [heq], by
        intro y hy
        rcases List.mem_cons.mp hy with rfl | hy
        · exact ha'
        · exact hall y hy⟩

theorem find?_of_exists {α : Type} {p : α → Bool} {l : List α}
    (h : ∃ x ∈ l, p x = true) : ∃ y, l.find? p = some y := by
  induction l with
  | nil => simp at h
  | cons a t ih =>
    by_cases ha : p a
    · exact ⟨a, List.find?_cons_of_pos _ ha⟩
    · obtain ⟨x, hx, hpx⟩ := h
      rcases List.mem_cons.mp hx with rfl | hx
      · exact absurd hpx ha
      · obtain ⟨y, hy⟩ := ih ⟨x, hx, hpx⟩
        exact ⟨y, by rw [List.find?_cons_of_neg _ (by simpa using ha)]; exact hy⟩

theorem le_foldl_max (t : List ℤ) : ∀ a : ℤ, a ≤ t.foldl max a := by
  induction t with
  | nil => intro a; exact le_refl a
  | cons b t ih =>
    intro a
    calc a ≤ max a b := le_max_left a b
    _ ≤ t.foldl max (max a b) := ih (max a b)

theorem mem_le_foldl_max (t : List ℤ) : ∀ a y, y ∈ t → y ≤ t.foldl max a := by
  induction t with
  | nil => intro a y hy; simp at hy
  | cons b t ih =>
    intro a y hy
    rcases List.mem_cons.mp hy with rfl | hy
    · calc y ≤ max a y := le_max_right a y
      _ ≤ t.foldl max (max a y) := le_foldl_max t (max a y)
    · exact ih (max a b) y hy

theorem foldl_max_mem (t : List ℤ) : ∀ a, t.foldl max a = a ∨ t.foldl max a ∈ t := by
  induction t with
  | nil => intro a; exact Or.inl rfl
  | cons b t ih =>
    intro a
    rcases ih (max a b) with h | h
    · rcases max_choice a b with hm | hm
      · exact Or.inl (by rw [List.foldl_cons, h, hm])
      · exact Or.inr (by rw [List.foldl_cons, h, hm]; exact List.mem_cons_self b t)
    · exact Or.inr (List.mem_cons_of_mem b h)

theorem maxQ_mem {l : List ℤ} (hl : l ≠ []) : maxQ l ∈ l := by
  match l with
  | x :: t =>
    rcases foldl_max_mem t x with h | h
    · rw [maxQ, h]; exact List.mem_cons_self x t
    · exact List.mem_cons_of_mem x h

theorem le_maxQ {l : List ℤ} {y : ℤ} (hy : y ∈ l) : y ≤ maxQ l := by
  match l with
  | x :: t =>
    rcases List.mem_cons.mp hy with rfl | hy
    · exact le_foldl_max t y
    · exact mem_le_foldl_max t x y hy

theorem countOcc_pos {x : ℤ} {l : List ℤ} (hx : x ∈ l) : 0 < countOcc x l := by
  have : x ∈ l.filter (fun y => decide (y = x)) := List.mem_filter.mpr ⟨hx, by simp⟩
  have : l.filter (fun y => decide (y = x)) ≠ [] := List.ne_nil_of_mem this
  unfold countOcc
  exact List.length_pos.mpr this

theorem countOcc_le_maxCount (x : ℤ) (l : List ℤ) (hx : x ∈ l) :
    countOcc x l ≤ maxCount l := by
  have hmem : countOcc x l ∈ l.map (fun z => countOcc z l) := List.mem_map_of_mem _ hx
  unfold maxCount
  generalize l.map (fun z => countOcc z l) = ns at hmem
  induction ns with
  | nil => simp at hmem
  | cons n t ih =>
    rcases List.mem_cons.mp hmem with rfl | hmem
    · exact le_max_left _ _
    · exact le_trans (ih hmem) (le_max_right _ _)

theorem maxCount_attained (l : List ℤ) (hl : l ≠ []) :
    ∃ x ∈ l, countOcc x l = maxCount l := by
  have hfold : ∀ ns : List Nat, ns.foldr max 0 ∈ ns ∨ ns.foldr max 0 = 0 := by
    intro ns
    induction ns with
    | nil => exact Or.inr rfl
    | cons n t ih =>
      rcases max_choice n (t.foldr max 0) with hm | hm
      · exact Or.inl (by rw [List.foldr_cons, hm]; exact List.mem_cons_self n t)
      · rcases ih with h | h
        · exact Or.inl (by rw [List.foldr_cons, hm]; exact List.mem_cons_of_mem n h)
        · rcases max_choice n (t.foldr max 0) with hm2 | hm2
          · exact Or.inl (by rw [List.foldr_cons, hm2]; exact List.mem_cons_self n t)
          · exact Or.inr (by rw [List.foldr_cons, hm2]; exact h)
  rcases hfold (l.map (fun z => countOcc z l)) with h | h
  · obtain ⟨x, hx, hcx⟩ := List.mem_map.mp h
    exact ⟨x, hx, hcx.symm ▸ rfl⟩
  · exfalso
    match l with
    | x :: t =>
      have h1 : 0 < countOcc x (x :: t) := countOcc_pos (List.mem_cons_self x t)
      have h2 : countOcc x (x :: t) ≤ maxCount (x :: t) :=
        countOcc_le_maxCount x (x :: t) (List.mem_cons_self x t)
      have h3 : maxCount (x :: t) = 0 := h
      omega

theorem modeSpec_pyMode (l : List ℤ) (hl : l ≠ []) : modeSpec l (pyMode l) := by
  obtain ⟨x, hx, hcx⟩ := maxCount_attained l hl
  obtain ⟨y, hy⟩ :=
    find?_of_exists (p := fun z => decide (countOcc z l = maxCount l)) ⟨x, hx, by simpa using hcx⟩
  have hmem := List.mem_of_find?_eq_some hy
  have hpy : countOcc y l = maxCount l := by simpa using List.find?_some hy
  obtain ⟨l1, l2, hsplit, hl1⟩ := find?_split hy
  have hval : pyMode l = y := by unfold pyMode; rw [hy]
  rw [hval]
  refine ⟨hmem, ?_, l1, l2, hsplit, ?_⟩
  · intro z hz
    rw [hpy]
    exact countOcc_le_maxCount z l hz
  · intro z hz
    have hz2 : z ∈ l := by rw [hsplit]; exact List.mem_append_left _ hz
    have hne : countOcc z l ≠ maxCount l := by simpa using hl1 z hz
    have hle := countOcc_le_maxCount z l hz2
    rw [hpy]
    omega

theorem pyMode_mem (l : List ℤ) (hl : l ≠ []) : pyMode l ∈ l :=
  (modeSpec_pyMode l hl).1

/-! ### Claim C4: body-style estimation -/

/-- C4: the estimator returns the statistical mode of the font sizes
restricted to sizes strictly below 20; when no size is below 20 it
falls back to the mode over all sizes; the mode is a member of maximal
occurrence count with ties broken by insertion order of first
occurrence; and the empty fragment list yields the default 12. -/
theorem C4_body_style_estimation (blocks : List Fragment) :
    (blocks = [] → get_body_text_style blocks = (12, "")) ∧
    (blocks ≠ [] →
      ((blocks.filter (fun b => decide (b.font_size < 20))).map Fragment.font_size ≠ [] →
        (get_body_text_style blocks).1 =
          pyMode ((blocks.filter (fun b => decide (b.font_size < 20))).map Fragment.font_size) ∧
        modeSpec ((blocks.filter (fun b => decide (b.font_size < 20))).map Fragment.font_size)
          (get_body_text_style blocks).1) ∧
      ((blocks.filter (fun b => decide (b.font_size < 20))).map Fragment.font_size = [] →
        (get_body_text_style blocks).1 = pyMode (blocks.map Fragment.font_size) ∧
        modeSpec (blocks.map Fragment.font_size) (get_body_text_style blocks).1)) := by
  constructor
  · intro h
    rw [get_body_text_style, if_pos h]
  · intro hne
    constructor
    · intro hr
      have hval : (get_body_text_style blocks).1 =
          pyMode ((blocks.filter (fun b => decide (b.font_size < 20))).map Fragment.font_size) := by
        rw [get_body_text_style, if_neg hne]
        simp only [if_neg hr]
      exact ⟨hval, hval ▸ modeSpec_pyMode _ hr⟩
    · intro hr
      have hval : (get_body_text_style blocks).1 = pyMode (blocks.map Fragment.font_size) := by
        rw [get_body_text_style, if_neg hne]
        simp only [if_pos hr]
      have hmapne : blocks.map Fragment.font_size ≠ [] := by
        intro hmap
        exact hne (List.map_eq_nil_iff.mp hmap)
      exact ⟨hval, hval ▸ modeSpec_pyMode _ hmapne⟩

theorem C4_body_style_estimation_witness :
    get_body_text_style [] = (12, "") ∧
    (get_body_text_style sampleBlocks).1 =
      pyMode ((sampleBlocks.filter (fun b => decide (b.font_size < 20))).map Fragment.font_size) ∧
    (get_body_text_style sampleBlocks).1 = 12 :=
  ⟨(C4_body_style_estimation []).1 rfl,
   (((C4_body_style_estimation sampleBlocks).2 (by decide)).1 (by decide)).1,
   by decide⟩

/-! ### Claim C10: the estimated body size occurs in the input -/

/-- C10: for every nonempty fragment list the estimated body size is
the font size of some input fragment; only the empty list yields the
out-of-band default 12. -/
theorem C10_body_size_membership (blocks : List Fragment) :
    (blocks ≠ [] → (get_body_text_style blocks).1 ∈ blocks.map Fragment.font_size) ∧
    (blocks = [] → get_body_text_style blocks = (12, "")) := by
  constructor
  · intro hne
    rw [get_body_text_style, if_neg hne]
    by_cases hr : (blocks.filter (fun b => decide (b.font_size < 20))).map Fragment.font_size = []
    · simp only [if_pos hr]
      exact pyMode_mem _ (fun hmap => hne (List.map_eq_nil_iff.mp hmap))
    · simp only [if_neg hr]
      have hmem := pyMode_mem _ hr
      obtain ⟨b, hb, hfs⟩ := List.mem_map.mp hmem
      exact hfs ▸ List.mem_map_of_mem _ (List.mem_of_mem_filter hb)
  · intro h
    rw [get_body_text_style, if_pos h]

theorem C10_body_size_membership_witness :
    (get_body_text_style sampleBlocks).1 ∈ sampleBlocks.map Fragment.font_size ∧
    get_body_text_style [] = (12, "") :=
  ⟨(C10_body_size_membership sampleBlocks).1 (by decide),
   (C10_body_size_membership []).2 rfl⟩

/-! ### Claim C5: title selection -/

theorem identify_snd (blocks : List Fragment) (body_size : ℤ) :
    (identify_and_classify_headings blocks body_size).2 = titleOf blocks := by
  rw [identify_and_classify_headings]
  split <;> rfl

theorem generate_ok (blocks : List Fragment) (hne : blocks ≠ []) :
    generate_outline_from_pdf (OpenResult.ok blocks) =
      OutlineResult.success
        (match (identify_and_classify_headings blocks (get_body_text_style blocks).1).2 with
          | some t => t.1
          | none => "Untitled")
        ((identify_and_classify_headings blocks (get_body_text_style blocks).1).1.map
          (fun h => OutlineEntry.mk h.level h.text h.page))
        (group_text_into_sections blocks
          (identify_and_classify_headings blocks (get_body_text_style blocks).1).1) := by
  unfold generate_outline_from_pdf
  simp only [if_neg hne]

/-- C5: with a nonempty page-1 subset, the title is the first page-1
fragment (in stream order) whose font size equals the page-1 maximum,
returned as its text with page 1; with no page-1 fragments, the title
info is absent and the assembled result's title is "Untitled". -/
theorem C5_title_selection (blocks : List Fragment) :
    (blocks.filter (fun b => decide (b.page = 1)) = [] → titleOf blocks = none) ∧
    (blocks.filter (fun b => decide (b.page = 1)) ≠ [] →
      ∃ b l1 l2, blocks.filter (fun b => decide (b.page = 1)) = l1 ++ b :: l2 ∧
        titleOf blocks = some (b.text, 1) ∧
        b.page = 1 ∧
        (∀ c ∈ blocks.filter (fun b => decide (b.page = 1)), c.font_size ≤ b.font_size) ∧
        (∀ c ∈ l1, c.font_size < b.font_size)) ∧
    (blocks ≠ [] → blocks.filter (fun b => decide (b.page = 1)) = [] →
      ∃ o s, generate_outline_from_pdf (OpenResult.ok blocks) =
        OutlineResult.success "Untitled" o s) := by
  refine ⟨?_, ?_, ?_⟩
  · intro hfe
    rw [titleOf]
    simp only [hfe, if_pos]
  · intro hfne
    set fb := blocks.filter (fun b => decide (b.page = 1)) with hfb
    have hmapne : fb.map Fragment.font_size ≠ [] :=
      fun hmap => hfne (List.map_eq_nil_iff.mp hmap)
    obtain ⟨mx, hmx, hmxval⟩ := List.mem_map.mp (maxQ_mem hmapne)
    have hex : ∃ x ∈ fb, (fun b => decide (b.font_size = maxQ (fb.map Fragment.font_size))) x
        = true := ⟨mx, hmx, by simpa using hmxval⟩
    obtain ⟨b, hb⟩ := find?_of_exists hex
    have hbmem := List.mem_of_find?_eq_some hb
    have hbval : b.font_size = maxQ (fb.map Fragment.font_size) := by
      simpa using List.find?_some hb
    obtain ⟨l1, l2, hsplit, hall⟩ := find?_split hb
    refine ⟨b, l1, l2, hsplit, ?_, ?_, ?_, ?_⟩
    · rw [titleOf]
      simp only [← hfb, if_neg hfne, hb]
    · have := (List.mem_filter.mp hbmem).2
      simpa using this
    · intro c hc
      rw [hbval]
      exact le_maxQ (List.mem_map_of_mem _ hc)
    · intro c hc
      have hcmem : c ∈ fb := by rw [hsplit]; exact List.mem_append_left _ hc
      have hne : c.font_size ≠ maxQ (fb.map Fragment.font_size) := by
        simpa using hall c hc
      have hle : c.font_size ≤ maxQ (fb.map Fragment.font_size) :=
        le_maxQ (List.mem_map_of_mem _ hcmem)
      rw [hbval]
      exact lt_of_le_of_ne hle hne
  · intro hbne hfe
    have hnone : titleOf blocks = none := by
      rw [titleOf]
      simp only [hfe, if_pos]
    have hgen := generate_ok blocks hbne
    rw [identify_snd, hnone] at hgen
    exact ⟨_, _, hgen⟩

theorem C5_title_selection_witness :
    (titleOf [] = none) ∧
    (∃ b l1 l2, sampleBlocks.filter (fun b => decide (b.page = 1)) = l1 ++ b :: l2 ∧
      titleOf sampleBlocks = some (b.text, 1) ∧
      b.page = 1 ∧
      (∀ c ∈ sampleBlocks.filter (fun b => decide (b.page = 1)), c.font_size ≤ b.font_size) ∧
      (∀ c ∈ l1, c.font_size < b.font_size)) ∧
    (∃ o s, generate_outline_from_pdf
        (OpenResult.ok [⟨"only page two", 12, "Helvetica", 2, 5⟩]) =
      OutlineResult.success "Untitled" o s) :=
  ⟨(C5_title_selection []).1 rfl,
   (C5_title_selection sampleBlocks).2.1 (by decide),
   (C5_title_selection [⟨"only page two", 12, "Helvetica", 2, 5⟩]).2.2 (by decide) (by decide)⟩

/-! ### Claim C8: result shapes and short-circuits -/

theorem leadMatch_refl (l : List Char) : leadMatch l l = true := by
  induction l with
  | nil => rfl
  | cons c t ih => simp [leadMatch, ih]

theorem containsSeq_suffix (pat : List Char) : ∀ pre, containsSeq pat (pre ++ pat) = true := by
  intro pre
  induction pre with
  | nil =>
    match pat with
    | [] => rfl
    | c :: t => simp [containsSeq, leadMatch_refl]
  | cons a pre ih =>
    match pat with
    | [] => rfl
    | c :: t =>
      show containsSeq (c :: t) (a :: (pre ++ c :: t)) = true
      rw [containsSeq]
      simp [ih]

/-- C8: an open failure produces exactly the error shape with the
underlying cause contained in the message (and the result does not
depend on any fragment data); an empty fragment stream produces exactly
the empty success shape; a nonempty fragment stream produces the
success shape. -/
theorem C8_result_shapes :
    (∀ e, generate_outline_from_pdf (OpenResult.failed e) =
        OutlineResult.error ("Could not open PDF: " ++ e) ∧
      containsSeq e.data ("Could not open PDF: " ++ e).data = true) ∧
    generate_outline_from_pdf (OpenResult.ok []) = OutlineResult.success "" [] [] ∧
    (∀ blocks, blocks ≠ [] →
      ∃ t o s, generate_outline_from_pdf (OpenResult.ok blocks) =
        OutlineResult.success t o s) := by
  refine ⟨?_, rfl, ?_⟩
  · intro e
    refine ⟨rfl, ?_⟩
    have hdata : ("Could not open PDF: " ++ e).data = "Could not open PDF: ".data ++ e.data := by
      rfl
    rw [hdata]
    exact containsSeq_suffix e.data "Could not open PDF: ".data
  · intro blocks hne
    exact ⟨_, _, _, generate_ok blocks hne⟩

/-! ### Equivalence of the executable matcher with the declarative
enumeration pattern -/

theorem digit_not_space {c : Char} (h : isDigitB c = true) : isSpaceB c = false := by
  unfold isDigitB at h
  unfold isSpaceB
  simp only [decide_eq_true_eq] at h
  simp only [decide_eq_false_iff_not]
  omega

theorem upper_not_digit {c : Char} (h : isUpperB c = true) : isDigitB c = false := by
  unfold isUpperB at h
  unfold isDigitB
  simp only [decide_eq_true_eq] at h
  simp only [decide_eq_false_iff_not]
  omega

theorem upper_not_space {c : Char} (h : isUpperB c = true) : isSpaceB c = false := by
  unfold isUpperB at h
  unfold isSpaceB
  simp only [decide_eq_true_eq] at h
  simp only [decide_eq_false_iff_not]
  omega

theorem space_ne_dot {d : Char} (h : isSpaceB d = true) : d ≠ '.' := by
  intro he
  subst he
  exact absurd h (by decide)

theorem space_not_digit {d : Char} (h : isSpaceB d = true) : isDigitB d = false := by
  unfold isSpaceB at h
  unfold isDigitB
  simp only [decide_eq_true_eq] at h
  simp only [decide_eq_false_iff_not]
  omega

theorem dropWhile_all_append {p : Char → Bool} :
    ∀ (xs ys : List Char), (∀ x ∈ xs, p x = true) →
      (xs ++ ys).dropWhile p = ys.dropWhile p := by
  intro xs
  induction xs with
  | nil => intro ys _; rfl
  | cons a t ih =>
    intro ys hall
    rw [List.cons_append, List.dropWhile_cons_of_pos (hall a (List.mem_cons_self a t))]
    exact ih ys (fun x hx => hall x (List.mem_cons_of_mem a hx))

theorem dropWhile_cons_false {p : Char → Bool} {y : Char} {t : List Char}
    (h : p y = false) : (y :: t).dropWhile p = y :: t :=
  List.dropWhile_cons_of_neg (by simp [h])

theorem skipGroups_stop {l : List Char} (h : parserStops l) : skipGroups l = l := by
  rw [skipGroups_eq]
  match l with
  | [] => rfl
  | [c] => rfl
  | c :: c2 :: rest =>
    obtain ⟨h1, h2⟩ := h
    show (if c = '.' ∧ isDigitB c2 = true then
        skipGroups ((c2 :: rest).dropWhile isDigitB)
      else c :: c2 :: rest) = c :: c2 :: rest
    rw [if_neg]
    intro ⟨hc, hdig⟩
    have h3 : isDigitB c2 = false := h2 hc
    rw [h3] at hdig
    exact Bool.false_ne_true hdig

theorem flatten_groups_cons (g : List Char) (gs : List (List Char)) :
    ((g :: gs).map (fun x => '.' :: x)).flatten =
      ('.' :: g) ++ (gs.map (fun x => '.' :: x)).flatten := by
  simp

theorem intercalate_dot : ∀ (gs : List (List Char)) (g : List Char),
    List.intercalate ['.'] (g :: gs) = g ++ (gs.map (fun x => '.' :: x)).flatten := by
  intro gs
  induction gs with
  | nil => intro g; simp [List.intercalate]
  | cons g2 t ih =>
    intro g
    have h1 : List.intercalate ['.'] (g :: g2 :: t) =
        g ++ ['.'] ++ List.intercalate ['.'] (g2 :: t) := by
      simp [List.intercalate, List.intersperse]
    rw [h1, ih g2, flatten_groups_cons]
    simp

theorem skipGroups_flatten : ∀ (gs : List (List Char)) (rem : List Char),
    (∀ g ∈ gs, digitsGroup g) → parserStops rem →
    skipGroups ((gs.map (fun x => '.' :: x)).flatten ++ rem) = rem := by
  intro gs
  induction gs with
  | nil =>
    intro rem _ hrem
    simpa using skipGroups_stop hrem
  | cons g gs ih =>
    intro rem hgs hrem
    obtain ⟨hgne, hgdig⟩ := hgs g (List.mem_cons_self g gs)
    match g, hgne with
    | x :: g1, _ =>
      have hx : isDigitB x = true := hgdig x (List.mem_cons_self x g1)
      have heq : (((x :: g1) :: gs).map (fun z => '.' :: z)).flatten ++ rem =
          '.' :: x :: (g1 ++ ((gs.map (fun z => '.' :: z)).flatten ++ rem)) := by
        rw [flatten_groups_cons]
        simp
      rw [heq, skipGroups_eq]
      show (if ('.' : Char) = '.' ∧ isDigitB x = true then
          skipGroups ((x :: (g1 ++ ((gs.map (fun z => '.' :: z)).flatten ++ rem))).dropWhile
            isDigitB)
        else '.' :: x :: (g1 ++ ((gs.map (fun z => '.' :: z)).flatten ++ rem))) = rem
      rw [if_pos ⟨rfl, hx⟩]
      have hdrop1 : (x :: (g1 ++ ((gs.map (fun z => '.' :: z)).flatten ++ rem))).dropWhile
          isDigitB = ((gs.map (fun z => '.' :: z)).flatten ++ rem).dropWhile isDigitB := by
        have : x :: (g1 ++ ((gs.map (fun z => '.' :: z)).flatten ++ rem)) =
            (x :: g1) ++ ((gs.map (fun z => '.' :: z)).flatten ++ rem) := by simp
        rw [this]
        exact dropWhile_all_append _ _ hgdig
      have hdrop2 : ((gs.map (fun z => '.' :: z)).flatten ++ rem).dropWhile isDigitB =
          (gs.map (fun z => '.' :: z)).flatten ++ rem := by
        match gs with
        | g2 :: gs2 =>
          rw [flatten_groups_cons]
          exact dropWhile_cons_false (by decide)
        | [] =>
          simp only [List.map_nil, List.flatten_nil, List.nil_append]
          match rem, hrem with
          | [], _ => rfl
          | c :: t, hrem => exact dropWhile_cons_false hrem.1
      rw [hdrop1, hdrop2]
      exact ih rem (fun g hg => hgs g (List.mem_cons_of_mem _ hg)) hrem

theorem skipGroups_split (l : List Char) : ∃ gs : List (List Char), (∀ g ∈ gs, digitsGroup g) ∧
    l = (gs.map (fun x => '.' :: x)).flatten ++ skipGroups l := by
  generalize hn : l.length = n
  induction n using Nat.strong_induction_on generalizing l with
  | _ n ih =>
    subst hn
    rw [skipGroups_eq]
    match l with
    | [] => exact ⟨[], by simp, by simp⟩
    | [c] => exact ⟨[], by simp, by simp⟩
    | c :: c2 :: rest =>
      dsimp only
      by_cases h : c = '.' ∧ isDigitB c2 = true
      · rw [if_pos h]
        obtain ⟨hc, hc2⟩ := h
        subst hc
        have hlen : ((c2 :: rest).dropWhile isDigitB).length < ('.' :: c2 :: rest).length := by
          have := dropWhile_length_le isDigitB (c2 :: rest)
          simp only [List.length_cons] at this ⊢
          omega
        obtain ⟨gs, hgs, hdecomp⟩ := ih ((c2 :: rest).dropWhile isDigitB).length hlen _ rfl
        refine ⟨(c2 :: rest.takeWhile isDigitB) :: gs, ?_, ?_⟩
        · intro g hg
          rcases List.mem_cons.mp hg with rfl | hg
          · exact ⟨by simp, by
              intro x hx
              rcases List.mem_cons.mp hx with rfl | hx
              · exact hc2
              · exact List.mem_takeWhile_imp hx⟩
          · exact hgs g hg
        · rw [flatten_groups_cons, List.append_assoc, ← hdecomp]
          rw [List.dropWhile_cons_of_pos hc2]
          show '.' :: c2 :: rest = ('.' :: c2 :: rest.takeWhile isDigitB) ++ rest.dropWhile isDigitB
          simp [List.takeWhile_append_dropWhile]
      · rw [if_neg h]
        exact ⟨[], by simp, by simp⟩

theorem headingPatternMatch_iff (s : List Char) :
    headingPatternMatch s = true ↔ EnumMatch s := by
  constructor
  · intro h
    have hs : s = s.takeWhile isSpaceB ++ s.dropWhile isSpaceB :=
      (List.takeWhile_append_dropWhile (p := isSpaceB) (l := s)).symm
    have hws : ∀ x ∈ s.takeWhile isSpaceB, isSpaceB x = true :=
      fun x hx => List.mem_takeWhile_imp hx
    unfold headingPatternMatch at h
    match ht : s.dropWhile isSpaceB with
    | [] => rw [ht] at h; exact absurd h (by simp)
    | c :: rest =>
      rw [ht] at h
      dsimp only at h
      rw [ht] at hs
      by_cases hd : isDigitB c = true
      · rw [if_pos hd] at h
        obtain ⟨gs, hgs, hdecomp⟩ := skipGroups_split (rest.dropWhile isDigitB)
        have hrest : rest = rest.takeWhile isDigitB ++
            ((gs.map (fun x => '.' :: x)).flatten ++ skipGroups (rest.dropWhile isDigitB)) := by
          rw [← hdecomp]
          exact (List.takeWhile_append_dropWhile (p := isDigitB) (l := rest)).symm
        match hr2 : skipGroups (rest.dropWhile isDigitB) with
        | [] => rw [hr2] at h; exact absurd h (by simp)
        | c2 :: rest2 =>
          rw [hr2] at h
          dsimp only at h
          rw [hr2] at hrest
          by_cases hc2 : c2 = '.'
          · rw [if_pos hc2] at h
            match hr3 : rest2 with
            | [] => exact absurd h (by simp)
            | d :: rest3 =>
              dsimp only at h
              refine ⟨s.takeWhile isSpaceB,
                List.intercalate ['.'] ((c :: rest.takeWhile isDigitB) :: gs) ++ ['.'],
                d, rest3, hws, h, ?_, Or.inl ⟨(c :: rest.takeWhile isDigitB) :: gs, ['.'],
                  by simp, ?_, Or.inr rfl, rfl⟩⟩
              · subst hc2
                conv_lhs => rw [hs, hrest]
                rw [intercalate_dot]
                simp
              · intro g hg
                rcases List.mem_cons.mp hg with rfl | hg
                · exact ⟨by simp, by
                    intro x hx
                    rcases List.mem_cons.mp hx with rfl | hx
                    · exact hd
                    · exact List.mem_takeWhile_imp hx⟩
                · exact hgs g hg
          · rw [if_neg hc2] at h
            refine ⟨s.takeWhile isSpaceB,
              List.intercalate ['.'] ((c :: rest.takeWhile isDigitB) :: gs),
              c2, rest2, hws, h, ?_, Or.inl ⟨(c :: rest.takeWhile isDigitB) :: gs, [],
                by simp, ?_, Or.inl rfl, by simp⟩⟩
            · conv_lhs => rw [hs, hrest]
              rw [intercalate_dot]
              simp
            · intro g hg
              rcases List.mem_cons.mp hg with rfl | hg
              · exact ⟨by simp, by
                  intro x hx
                  rcases List.mem_cons.mp hx with rfl | hx
                  · exact hd
                  · exact List.mem_takeWhile_imp hx⟩
              · exact hgs g hg
      · rw [if_neg hd] at h
        by_cases hu : isUpperB c = true
        · rw [if_pos hu] at h
          match hr : rest with
          | [] => exact absurd h (by simp)
          | c2 :: rest2 =>
            dsimp only at h
            by_cases hc2 : c2 = '.'
            · rw [if_pos hc2] at h
              match hr3 : rest2 with
              | [] => exact absurd h (by simp)
              | d :: rest3 =>
                dsimp only at h
                refine ⟨s.takeWhile isSpaceB, [c, '.'], d, rest3, hws, h, ?_,
                  Or.inr ⟨c, hu, rfl⟩⟩
                subst hc2
                conv_lhs => rw [hs]
                simp
            · rw [if_neg hc2] at h
              exact absurd h (by simp)
        · rw [if_neg hu] at h
          exact absurd h (by simp)
  · intro h
    obtain ⟨ws, core, d, rest, hws, hd, hseq, hcore⟩ := h
    rcases hcore with ⟨groups, tl, hgne, hgroups, htl, hcoreval⟩ | ⟨u, hu, hcoreval⟩
    · match groups, hgne with
      | [] :: gs, _ =>
        exact absurd rfl (hgroups [] (List.mem_cons_self [] gs)).1
      | (x :: g1) :: gs, _ =>
        have hx : isDigitB x = true :=
          (hgroups (x :: g1) (List.mem_cons_self _ gs)).2 x (List.mem_cons_self x g1)
        have hg1 : ∀ y ∈ g1, isDigitB y = true := fun y hy =>
          (hgroups (x :: g1) (List.mem_cons_self _ gs)).2 y (List.mem_cons_of_mem x hy)
        have hcore2 : core = x :: (g1 ++ ((gs.map (fun z => '.' :: z)).flatten ++ tl)) := by
          rw [hcoreval, intercalate_dot]
          simp
        have hrem_stop : parserStops (tl ++ d :: rest) := by
          rcases htl with rfl | rfl
          · simp only [List.nil_append]
            exact ⟨space_not_digit hd, fun hdot => absurd hdot (space_ne_dot hd)⟩
          · exact ⟨by decide, fun _ => space_not_digit hd⟩
        have hdropS : s.dropWhile isSpaceB =
            x :: (g1 ++ ((gs.map (fun z => '.' :: z)).flatten ++ (tl ++ d :: rest))) := by
          rw [hseq, hcore2]
          have : (ws ++ (x :: (g1 ++ ((gs.map (fun z => '.' :: z)).flatten ++ tl))) ++
              d :: rest) = ws ++ (x :: (g1 ++ ((gs.map (fun z => '.' :: z)).flatten ++
              (tl ++ d :: rest)))) := by simp
          rw [this, dropWhile_all_append _ _ hws]
          exact dropWhile_cons_false (digit_not_space hx)
        have hdropD : (g1 ++ ((gs.map (fun z => '.' :: z)).flatten ++
            (tl ++ d :: rest))).dropWhile isDigitB =
            (gs.map (fun z => '.' :: z)).flatten ++ (tl ++ d :: rest) := by
          rw [dropWhile_all_append _ _ hg1]
          match gs with
          | g2 :: gs2 =>
            rw [flatten_groups_cons]
            exact dropWhile_cons_false (by decide)
          | [] =>
            simp only [List.map_nil, List.flatten_nil, List.nil_append]
            rcases htl with rfl | rfl
            · exact dropWhile_cons_false (space_not_digit hd)
            · exact dropWhile_cons_false (by decide)
        unfold headingPatternMatch
        rw [hdropS]
        dsimp only
        rw [if_pos hx, hdropD, skipGroups_flatten gs (tl ++ d :: rest)
          (fun g hg => hgroups g (List.mem_cons_of_mem _ hg)) hrem_stop]
        rcases htl with rfl | rfl
        · simp only [List.nil_append]
          rw [if_neg (space_ne_dot hd)]
          exact hd
        · simp only [List.cons_append, List.nil_append]
          simpa using hd
    · have hdropS : s.dropWhile isSpaceB = u :: '.' :: d :: rest := by
        rw [hseq, hcoreval]
        have : (ws ++ [u, '.'] ++ d :: rest) = ws ++ (u :: '.' :: d :: rest) := by simp
        rw [this, dropWhile_all_append _ _ hws]
        exact dropWhile_cons_false (upper_not_space hu)
      unfold headingPatternMatch
      rw [hdropS]
      dsimp only
      rw [if_neg (by simp [upper_not_digit hu]), if_pos hu]
      rw [if_pos rfl]
      exact hd

/-! ### Claim C1: heading candidacy scoring -/

/-- C1: a fragment whose text equals the selected title text and whose
page is 1 is never a candidate; every other input fragment is a
candidate exactly when its score reaches the threshold 4; and the
enumeration criterion used by the score holds exactly when the text
matches the declarative leading-enumeration pattern of the
specification. -/
theorem C1_candidacy_scoring (blocks : List Fragment) (body_size : ℤ) (b : Fragment) :
    (∀ ttext tpage, titleOf blocks = some (ttext, tpage) → b.page = 1 → b.text = ttext →
      b ∉ candidatesOf blocks body_size (titleOf blocks)) ∧
    (b ∈ blocks → skipAsTitle (titleOf blocks) b = false →
      (b ∈ candidatesOf blocks body_size (titleOf blocks) ↔ 4 ≤ scoreOf body_size b)) ∧
    (headingPatternMatch b.text.data = true ↔ EnumMatch b.text.data) := by
  refine ⟨?_, ?_, headingPatternMatch_iff b.text.data⟩
  · intro ttext tpage htitle hpage htext hmem
    have hpred := (List.mem_filter.mp hmem).2
    rw [Bool.and_eq_true] at hpred
    have hskip : skipAsTitle (titleOf blocks) b = true := by
      rw [htitle]
      unfold skipAsTitle
      simp [hpage, htext]
    rw [hskip] at hpred
    simp at hpred
  · intro hmem hskip
    constructor
    · intro hc
      have hpred := (List.mem_filter.mp hc).2
      rw [Bool.and_eq_true] at hpred
      simpa using hpred.2
    · intro hscore
      refine List.mem_filter.mpr ⟨hmem, ?_⟩
      rw [Bool.and_eq_true, hskip]
      exact ⟨rfl, by simpa using hscore⟩

theorem C1_candidacy_scoring_witness :
    (⟨"1. Background", 18, "Helvetica-Bold", 1, 50⟩ : Fragment) ∉
      candidatesOf sampleBlocks 12 (titleOf sampleBlocks) ∧
    ((⟨"1.1 Detail", 16, "Helvetica-Bold", 1, 120⟩ : Fragment) ∈
        candidatesOf sampleBlocks 12 (titleOf sampleBlocks) ↔
      4 ≤ scoreOf 12 ⟨"1.1 Detail", 16, "Helvetica-Bold", 1, 120⟩) ∧
    (headingPatternMatch "1.1 Detail".data = true ↔ EnumMatch "1.1 Detail".data) :=
  ⟨(C1_candidacy_scoring sampleBlocks 12 ⟨"1. Background", 18, "Helvetica-Bold", 1, 50⟩).1
      "1. Background" 1 (by decide) rfl rfl,
   (C1_candidacy_scoring sampleBlocks 12 ⟨"1.1 Detail", 16, "Helvetica-Bold", 1, 120⟩).2.1
      (by decide) (by decide),
   (C1_candidacy_scoring sampleBlocks 12 ⟨"1.1 Detail", 16, "Helvetica-Bold", 1, 120⟩).2.2⟩

/-! ### Claim C9: the implicit candidacy bound -/

theorem scoreOf_bound {body_size : ℤ} {b : Fragment}
    (h1 : b.font_size ≤ body_size + 1)
    (h2 : headingPatternMatch b.text.data = false) :
    scoreOf body_size b ≤ 3 := by
  have e1 : (if b.font_size > body_size + 1 then 2 else 0) = 0 := if_neg (not_lt.mpr h1)
  have e3 : (if headingPatternMatch b.text.data then 5 else 0) = 0 := by simp [h2]
  have e2 : (if containsSeq "bold".data (b.font_name.data.map toLowerB) then 1 else 0) ≤ 1 := by
    split <;> omega
  have e4 : (if wordCount b.text.data < 15 then 1 else 0) ≤ 1 := by
    split <;> omega
  have e5 : (if pyIsUpper b.text.data && decide (b.text.length > 2) then 1 else 0) ≤ 1 := by
    split <;> omega
  unfold scoreOf
  omega

theorem mem_headings {blocks : List Fragment} {body_size : ℤ} {h : Heading}
    (hh : h ∈ (identify_and_classify_headings blocks body_size).1) :
    ∃ b ∈ candidatesOf blocks body_size (titleOf blocks),
      projectHeading (styleMapOf (distinctSizesDesc
        (candidatesOf blocks body_size (titleOf blocks)))) b = some h := by
  simp only [identify_and_classify_headings] at hh
  by_cases hc : candidatesOf blocks body_size (titleOf blocks) = []
  · rw [if_pos hc] at hh
    simp at hh
  · rw [if_neg hc] at hh
    have hh2 : h ∈ (candidatesOf blocks body_size (titleOf blocks)).filterMap
        (projectHeading (styleMapOf (distinctSizesDesc
          (candidatesOf blocks body_size (titleOf blocks))))) :=
      (List.mem_insertionSort hLE).mp hh
    exact List.mem_filterMap.mp hh2

theorem projectHeading_some {smap : List (ℤ × String)} {b : Fragment} {h : Heading}
    (hp : projectHeading smap b = some h) :
    lookupQ smap b.font_size = some h.level ∧ h.text = b.text ∧ h.page = b.page ∧
      h.y_pos = b.y_pos := by
  unfold projectHeading at hp
  match hl : lookupQ smap b.font_size with
  | none => rw [hl] at hp; exact absurd hp (by simp)
  | some lvl =>
    rw [hl] at hp
    have heq : (⟨lvl, b.text, b.page, b.y_pos⟩ : Heading) = h := Option.some_inj.mp hp
    rw [← heq]
    exact ⟨rfl, rfl, rfl, rfl⟩

/-- C9: a fragment whose font size is at most body_size + 1 and whose
text does not match the enumeration pattern scores at most 3, below the
threshold 4; hence every candidate, and every output heading's source
candidate, has font size exceeding body_size + 1 or an
enumeration-pattern match. -/
theorem candidate_size_or_pattern {body_size : ℤ} {c : Fragment}
    {blocks : List Fragment} {title_info : Option (String × Nat)}
    (hmem : c ∈ candidatesOf blocks body_size title_info) :
    body_size + 1 < c.font_size ∨ headingPatternMatch c.text.data = true := by
  by_contra hcon
  push_neg at hcon
  obtain ⟨hns, hnp⟩ := hcon
  have hle : c.font_size ≤ body_size + 1 := hns
  have hpat : headingPatternMatch c.text.data = false := by simpa using hnp
  have hbound := scoreOf_bound hle hpat
  have hpred := (List.mem_filter.mp hmem).2
  rw [Bool.and_eq_true] at hpred
  have hscore : 4 ≤ scoreOf body_size c := by simpa using hpred.2
  omega

theorem C9_candidacy_bound (body_size : ℤ) (b : Fragment) :
    (b.font_size ≤ body_size + 1 → headingPatternMatch b.text.data = false →
      scoreOf body_size b ≤ 3) ∧
    (∀ blocks title_info, b ∈ candidatesOf blocks body_size title_info →
      body_size + 1 < b.font_size ∨ headingPatternMatch b.text.data = true) ∧
    (∀ blocks h, h ∈ (identify_and_classify_headings blocks body_size).1 →
      ∃ c ∈ candidatesOf blocks body_size (titleOf blocks),
        c.text = h.text ∧ c.page = h.page ∧
        (body_size + 1 < c.font_size ∨ headingPatternMatch c.text.data = true)) := by
  refine ⟨fun h1 h2 => scoreOf_bound h1 h2,
    fun blocks title_info hmem => candidate_size_or_pattern hmem, ?_⟩
  intro blocks h hh
  obtain ⟨c, hc, hp⟩ := mem_headings hh
  obtain ⟨_, htext, hpage, _⟩ := projectHeading_some hp
  exact ⟨c, hc, htext.symm, hpage.symm, candidate_size_or_pattern hc⟩

theorem C9_candidacy_bound_witness :
    scoreOf 12 ⟨"body text here", 12, "Helvetica", 1, 80⟩ ≤ 3 ∧
    ((12 : ℤ) + 1 < 16 ∨ headingPatternMatch "1.1 Detail".data = true) ∧
    (∃ c ∈ candidatesOf sampleBlocks 12 (titleOf sampleBlocks),
      c.text = "1.1 Detail" ∧ c.page = 1 ∧
      ((12 : ℤ) + 1 < c.font_size ∨ headingPatternMatch c.text.data = true)) :=
  ⟨(C9_candidacy_bound 12 ⟨"body text here", 12, "Helvetica", 1, 80⟩).1
      (by decide) (by decide),
   (C9_candidacy_bound 12 ⟨"1.1 Detail", 16, "Helvetica-Bold", 1, 120⟩).2.1 sampleBlocks
      (titleOf sampleBlocks) (by decide),
   (C9_candidacy_bound 12 ⟨"1.1 Detail", 16, "Helvetica-Bold", 1, 120⟩).2.2 sampleBlocks
      ⟨"H1", "1.1 Detail", 1, 120⟩ (by decide)⟩

/-! ### Claim C2: level assignment and output order -/

theorem headings_sorted (blocks : List Fragment) (body_size : ℤ) :
    List.Sorted hLE (identify_and_classify_headings blocks body_size).1 := by
  simp only [identify_and_classify_headings]
  split
  · exact List.sorted_nil
  · exact List.sorted_insertionSort hLE _

theorem headings_perm (blocks : List Fragment) (body_size : ℤ) :
    (identify_and_classify_headings blocks body_size).1.Perm
      ((candidatesOf blocks body_size (titleOf blocks)).filterMap
        (projectHeading (styleMapOf (distinctSizesDesc
          (candidatesOf blocks body_size (titleOf blocks)))))) := by
  simp only [identify_and_classify_headings]
  split
  · rename_i hc
    rw [hc]
    simp
  · exact List.perm_insertionSort hLE _

theorem sizes_nodup (cands : List Fragment) : (distinctSizesDesc cands).Nodup := by
  unfold distinctSizesDesc
  exact (List.perm_insertionSort geQ _).symm.nodup (List.nodup_dedup _)

theorem sizes_sorted_gt (cands : List Fragment) :
    List.Pairwise (fun a b : ℤ => b < a) (distinctSizesDesc cands) := by
  have hsorted : List.Sorted geQ (distinctSizesDesc cands) :=
    List.sorted_insertionSort geQ _
  have hnodup := sizes_nodup cands
  exact (List.Pairwise.and hsorted hnodup).imp
    (fun hab => lt_of_le_of_ne hab.1 (Ne.symm hab.2))

theorem lookupQ_mem : ∀ (l : List (ℤ × String)) (q : ℤ) (v : String),
    lookupQ l q = some v → (q, v) ∈ l := by
  intro l
  induction l with
  | nil => intro q v h; exact absurd h (by simp [lookupQ])
  | cons kv rest ih =>
    intro q v h
    match kv with
    | (k, w) =>
      rw [lookupQ] at h
      by_cases hk : k = q
      · rw [if_pos hk] at h
        have hw := Option.some_inj.mp h
        subst hk
        subst hw
        exact List.mem_cons_self _ _
      · rw [if_neg hk] at h
        exact List.mem_cons_of_mem _ (ih q v h)

theorem lookupQ_zip_isSome : ∀ (ks : List ℤ) (vs : List String), ks.length ≤ vs.length →
    ∀ q, (lookupQ (ks.zip vs) q).isSome = true ↔ q ∈ ks := by
  intro ks
  induction ks with
  | nil => intro vs _ q; simp [lookupQ]
  | cons k ks ih =>
    intro vs hlen q
    match vs with
    | [] => simp at hlen
    | v :: vs =>
      rw [List.zip_cons_cons]
      show (if k = q then some v else lookupQ (ks.zip vs) q).isSome = true ↔ q ∈ k :: ks
      by_cases hk : k = q
      · rw [if_pos hk]
        simp [hk]
      · rw [if_neg hk]
        rw [ih vs (by simpa using hlen) q]
        constructor
        · exact fun h => List.mem_cons_of_mem _ h
        · intro h
          rcases List.mem_cons.mp h with rfl | h
          · exact absurd rfl hk
          · exact h

theorem lookupQ_zip_get : ∀ (ks : List ℤ) (vs : List String), ks.Nodup →
    ∀ i (hk : i < ks.length) (hv : i < vs.length),
      lookupQ (ks.zip vs) (ks.get ⟨i, hk⟩) = some (vs.get ⟨i, hv⟩) := by
  intro ks
  induction ks with
  | nil => intro vs _ i hk; simp at hk
  | cons k ks ih =>
    intro vs hnodup i hk hv
    match vs with
    | v :: vs =>
      match i with
      | 0 => simp [lookupQ]
      | i + 1 =>
        simp only [List.zip_cons_cons, lookupQ, List.get_cons_succ]
        have hmem : ks.get ⟨i, by simpa using hk⟩ ∈ ks := List.get_mem ks i _
        have hne : k ≠ ks.get ⟨i, by simpa using hk⟩ := by
          intro heq
          exact (List.nodup_cons.mp hnodup).1 (heq ▸ hmem)
        rw [if_neg hne]
        exact ih vs (List.nodup_cons.mp hnodup).2 i _ _

theorem zip_names_H1 : ∀ (ks : List ℤ) (q : ℤ),
    (q, "H1") ∈ ks.zip ["H1", "H2", "H3"] → ks.get? 0 = some q := by
  intro ks q h
  match ks with
  | [] => simp at h
  | k0 :: ks1 =>
    simp only [List.zip_cons_cons] at h
    rcases List.mem_cons.mp h with heq | h
    · have : q = k0 := congrArg Prod.fst heq
      subst this
      rfl
    · have := (List.of_mem_zip h).2
      exact absurd this (by decide)

theorem zip_names_H2 : ∀ (ks : List ℤ) (q : ℤ),
    (q, "H2") ∈ ks.zip ["H1", "H2", "H3"] → ks.get? 1 = some q := by
  intro ks q h
  match ks with
  | [] => simp at h
  | k0 :: ks1 =>
    simp only [List.zip_cons_cons] at h
    rcases List.mem_cons.mp h with heq | h
    · have : "H2" = "H1" := congrArg Prod.snd heq
      exact absurd this (by decide)
    · match ks1 with
      | [] => simp at h
      | k1 :: ks2 =>
        simp only [List.zip_cons_cons] at h
        rcases List.mem_cons.mp h with heq | h
        · have : q = k1 := congrArg Prod.fst heq
          subst this
          rfl
        · have := (List.of_mem_zip h).2
          exact absurd this (by decide)

/-- C2: the heading list is sorted ascending by `(page, y_pos)`; it is
a permutation of the candidates projected through the style map; a
candidate survives exactly when its font size is among the top 3
distinct candidate sizes (sorted descending); the i-th largest distinct
size maps to the i-th level name H1, H2, H3; every output level is one
of H1, H2, H3; and an H1 heading's source font size strictly exceeds an
H2 heading's source font size. -/
theorem C2_level_assignment (blocks : List Fragment) (body_size : ℤ) :
    List.Sorted hLE (identify_and_classify_headings blocks body_size).1 ∧
    (identify_and_classify_headings blocks body_size).1.Perm
      ((candidatesOf blocks body_size (titleOf blocks)).filterMap
        (projectHeading (styleMapOf (distinctSizesDesc
          (candidatesOf blocks body_size (titleOf blocks)))))) ∧
    (∀ b ∈ candidatesOf blocks body_size (titleOf blocks),
      (projectHeading (styleMapOf (distinctSizesDesc
          (candidatesOf blocks body_size (titleOf blocks)))) b).isSome = true ↔
        b.font_size ∈ (distinctSizesDesc (candidatesOf blocks body_size
          (titleOf blocks))).take 3) ∧
    (∀ i (hk : i < ((distinctSizesDesc (candidatesOf blocks body_size
        (titleOf blocks))).take 3).length) (hv : i < 3),
      lookupQ (styleMapOf (distinctSizesDesc (candidatesOf blocks body_size (titleOf blocks))))
          (((distinctSizesDesc (candidatesOf blocks body_size (titleOf blocks))).take 3).get
            ⟨i, hk⟩) =
        some ((["H1", "H2", "H3"] : List String).get ⟨i, hv⟩)) ∧
    (∀ h ∈ (identify_and_classify_headings blocks body_size).1,
      h.level ∈ (["H1", "H2", "H3"] : List String)) ∧
    (∀ b1 b2 h1 h2, b1 ∈ candidatesOf blocks body_size (titleOf blocks) →
      b2 ∈ candidatesOf blocks body_size (titleOf blocks) →
      projectHeading (styleMapOf (distinctSizesDesc (candidatesOf blocks body_size
        (titleOf blocks)))) b1 = some h1 →
      projectHeading (styleMapOf (distinctSizesDesc (candidatesOf blocks body_size
        (titleOf blocks)))) b2 = some h2 →
      h1.level = "H1" → h2.level = "H2" → b2.font_size < b1.font_size) := by
  refine ⟨headings_sorted blocks body_size, headings_perm blocks body_size, ?_, ?_, ?_, ?_⟩
  · intro b _
    unfold projectHeading styleMapOf
    have hmap : ∀ (x : Option String) (f : String → Heading), (x.map f).isSome = x.isSome := by
      intro x f
      cases x <;> rfl
    rw [hmap]
    exact lookupQ_zip_isSome _ _ (by
      have h3 := List.length_take_le 3 (distinctSizesDesc (candidatesOf blocks body_size
        (titleOf blocks)))
      simp only [List.length_cons, List.length_nil]
      omega) b.font_size
  · intro i hk hv
    unfold styleMapOf
    exact lookupQ_zip_get _ ["H1", "H2", "H3"]
      ((sizes_nodup _).sublist (List.take_sublist _ _)) i hk hv
  · intro h hh
    obtain ⟨b, _, hp⟩ := mem_headings hh
    obtain ⟨hl, _, _, _⟩ := projectHeading_some hp
    have hmem := lookupQ_mem _ _ _ hl
    exact (List.of_mem_zip hmem).2
  · intro b1 b2 h1 h2 hb1 hb2 hp1 hp2 hl1 hl2
    obtain ⟨hq1, _, _, _⟩ := projectHeading_some hp1
    obtain ⟨hq2, _, _, _⟩ := projectHeading_some hp2
    rw [hl1] at hq1
    rw [hl2] at hq2
    have hm1 := lookupQ_mem _ _ _ hq1
    have hm2 := lookupQ_mem _ _ _ hq2
    have hg1 := zip_names_H1 _ _ hm1
    have hg2 := zip_names_H2 _ _ hm2
    set tk := (distinctSizesDesc (candidatesOf blocks body_size (titleOf blocks))).take 3
      with htk
    obtain ⟨hlt1, hget1⟩ := List.get?_eq_some.mp hg1
    obtain ⟨hlt2, hget2⟩ := List.get?_eq_some.mp hg2
    have hpw : List.Pairwise (fun a b : ℤ => b < a) tk :=
      (sizes_sorted_gt _).sublist (List.take_sublist _ _)
    have := (List.pairwise_iff_get.mp hpw) ⟨0, hlt1⟩ ⟨1, hlt2⟩ (by simp)
    rw [hget1, hget2] at this
    exact this

theorem C2_level_assignment_witness :
    List.Sorted hLE (identify_and_classify_headings sampleBlocks 12).1 ∧
    ((⟨"1.1 Detail", 16, "Helvetica-Bold", 1, 120⟩ : Fragment) ∈
        candidatesOf sampleBlocks 12 (titleOf sampleBlocks) →
      ((projectHeading (styleMapOf (distinctSizesDesc
          (candidatesOf sampleBlocks 12 (titleOf sampleBlocks))))
          ⟨"1.1 Detail", 16, "Helvetica-Bold", 1, 120⟩).isSome = true ↔
        (16 : ℤ) ∈ (distinctSizesDesc (candidatesOf sampleBlocks 12
          (titleOf sampleBlocks))).take 3)) ∧
    (∀ h ∈ (identify_and_classify_headings sampleBlocks 12).1,
      h.level ∈ (["H1", "H2", "H3"] : List String)) :=
  ⟨(C2_level_assignment sampleBlocks 12).1,
   fun hm => (C2_level_assignment sampleBlocks 12).2.2.1 _ hm,
   (C2_level_assignment sampleBlocks 12).2.2.2.2.1⟩

/-! ### Claim C3: section partitioning -/

theorem group_eq_aux (blocks : List Fragment) {headings : List Heading} (h : headings ≠ []) :
    group_text_into_sections blocks headings = sectionsAux blocks headings headings := by
  match headings with
  | [] => exact absurd rfl h
  | a :: t => rfl

theorem sectionsAux_length (blocks : List Fragment) (all : List Heading) :
    ∀ hs, (sectionsAux blocks all hs).length = hs.length := by
  intro hs
  induction hs with
  | nil => rfl
  | cons h rest ih => simp [sectionsAux, ih]

theorem sectionFragLists_length (blocks : List Fragment) (all : List Heading) :
    ∀ hs, (sectionFragLists blocks all hs).length = hs.length := by
  intro hs
  induction hs with
  | nil => rfl
  | cons h rest ih => simp [sectionFragLists, ih]

theorem head?_eq_get?_zero (l : List Heading) : l.head? = l.get? 0 := by
  cases l <;> rfl

theorem sectionsAux_get (blocks : List Fragment) (all : List Heading) :
    ∀ (hs : List Heading) (i : Nat) (hi : i < hs.length)
      (hl : i < (sectionsAux blocks all hs).length),
      (sectionsAux blocks all hs).get ⟨i, hl⟩ =
        sectionFor blocks all (hs.get ⟨i, hi⟩) (hs.get? (i + 1)) := by
  intro hs
  induction hs with
  | nil => intro i hi; simp at hi
  | cons h rest ih =>
    intro i hi hl
    match i with
    | 0 =>
      show sectionFor blocks all h rest.head? = sectionFor blocks all h ((h :: rest).get? 1)
      rw [head?_eq_get?_zero]
      rfl
    | i + 1 =>
      show (sectionsAux blocks all rest).get ⟨i, _⟩ = _
      rw [ih i (by simpa using hi) _]
      rfl

theorem sectionFragLists_get (blocks : List Fragment) (all : List Heading) :
    ∀ (hs : List Heading) (i : Nat) (hi : i < hs.length)
      (hl : i < (sectionFragLists blocks all hs).length),
      (sectionFragLists blocks all hs).get ⟨i, hl⟩ =
        sectionContentFrags blocks all (hs.get ⟨i, hi⟩) (hs.get? (i + 1)) := by
  intro hs
  induction hs with
  | nil => intro i hi; simp at hi
  | cons h rest ih =>
    intro i hi hl
    match i with
    | 0 =>
      show sectionContentFrags blocks all h rest.head? = _
      rw [head?_eq_get?_zero]
      rfl
    | i + 1 =>
      show (sectionFragLists blocks all rest).get ⟨i, _⟩ = _
      rw [ih i (by simpa using hi) _]
      rfl

theorem afterStartB_iff (h : Heading) (b : Fragment) :
    afterStartB h b = true ↔ pLT (hKey h) (b.page, b.y_pos) := by
  unfold afterStartB pLT hKey
  simp only [Bool.or_eq_true, Bool.and_eq_true, decide_eq_true_eq]
  constructor
  · rintro (h1 | ⟨h1, h2⟩)
    · exact Or.inl h1
    · exact Or.inr ⟨h1.symm, h2⟩
  · rintro (h1 | ⟨h1, h2⟩)
    · exact Or.inl h1
    · exact Or.inr ⟨h1.symm, h2⟩

theorem beforeEndB_some_iff (n : Heading) (b : Fragment) :
    beforeEndB (some n) b = true ↔ pLT (b.page, b.y_pos) (hKey n) := by
  unfold beforeEndB pLT hKey
  simp only [Bool.or_eq_true, Bool.and_eq_true, decide_eq_true_eq]

theorem isHeadingBlockB_iff (all : List Heading) (b : Fragment) :
    isHeadingBlockB all b = true ↔ ∃ h ∈ all, h.text = b.text ∧ h.page = b.page := by
  unfold isHeadingBlockB
  rw [List.any_eq_true]
  constructor
  · rintro ⟨h, hh, hp⟩
    rw [Bool.and_eq_true] at hp
    exact ⟨h, hh, by simpa using hp.1, by simpa using hp.2⟩
  · rintro ⟨h, hh, h1, h2⟩
    exact ⟨h, hh, by rw [Bool.and_eq_true]; exact ⟨by simpa using h1, by simpa using h2⟩⟩

theorem mem_sectionContentFrags (blocks : List Fragment) (all : List Heading)
    (h : Heading) (nxt : Option Heading) (b : Fragment) :
    b ∈ sectionContentFrags blocks all h nxt ↔
      b ∈ blocks ∧ afterStartB h b = true ∧ beforeEndB nxt b = true ∧
        isHeadingBlockB all b = false := by
  unfold sectionContentFrags
  rw [List.mem_filter]
  constructor
  · rintro ⟨hb, hp⟩
    rw [Bool.and_eq_true, Bool.and_eq_true] at hp
    exact ⟨hb, hp.1.1, hp.1.2, by simpa using hp.2⟩
  · rintro ⟨hb, h1, h2, h3⟩
    refine ⟨hb, ?_⟩
    rw [Bool.and_eq_true, Bool.and_eq_true]
    exact ⟨⟨h1, h2⟩, by simp [h3]⟩

/-- C3: with a nonempty heading list the partitioner returns one
section per heading in the same order; section i carries its heading's
text, level and page, and its content is the newline join, in stream
order, of exactly the fragments strictly between heading i and heading
i+1 in `(page, y_pos)` order (unbounded above for the last heading)
that do not `(text, page)`-match any heading; an empty heading list
yields no sections for every fragment list. -/
theorem C3_section_partitioning (blocks : List Fragment) (headings : List Heading) :
    (∀ blocks2 : List Fragment, group_text_into_sections blocks2 [] = []) ∧
    (headings ≠ [] →
      (group_text_into_sections blocks headings).length = headings.length ∧
      (sectionFragLists blocks headings headings).length = headings.length ∧
      ∀ i (hi : i < headings.length)
        (h1 : i < (group_text_into_sections blocks headings).length)
        (h2 : i < (sectionFragLists blocks headings headings).length),
        ((group_text_into_sections blocks headings).get ⟨i, h1⟩).heading_text =
          (headings.get ⟨i, hi⟩).text ∧
        ((group_text_into_sections blocks headings).get ⟨i, h1⟩).heading_level =
          (headings.get ⟨i, hi⟩).level ∧
        ((group_text_into_sections blocks headings).get ⟨i, h1⟩).page =
          (headings.get ⟨i, hi⟩).page ∧
        ((group_text_into_sections blocks headings).get ⟨i, h1⟩).content =
          String.intercalate "\n"
            (((sectionFragLists blocks headings headings).get ⟨i, h2⟩).map Fragment.text) ∧
        (∀ b : Fragment, b ∈ (sectionFragLists blocks headings headings).get ⟨i, h2⟩ ↔
          (b ∈ blocks ∧ pLT (hKey (headings.get ⟨i, hi⟩)) (b.page, b.y_pos) ∧
            (∀ hn : i + 1 < headings.length,
              pLT (b.page, b.y_pos) (hKey (headings.get ⟨i + 1, hn⟩))) ∧
            ¬ ∃ h ∈ headings, h.text = b.text ∧ h.page = b.page))) := by
  refine ⟨fun _ => rfl, ?_⟩
  intro hne
  rw [group_eq_aux blocks hne]
  refine ⟨sectionsAux_length blocks headings headings,
    sectionFragLists_length blocks headings headings, ?_⟩
  intro i hi h1 h2
  rw [sectionsAux_get blocks headings headings i hi h1,
    sectionFragLists_get blocks headings headings i hi h2]
  refine ⟨rfl, rfl, rfl, rfl, ?_⟩
  intro b
  rw [mem_sectionContentFrags]
  constructor
  · rintro ⟨hb, ha, hbe, hhd⟩
    refine ⟨hb, (afterStartB_iff _ _).mp ha, ?_, ?_⟩
    · intro hn
      rw [List.get?_eq_get hn] at hbe
      exact (beforeEndB_some_iff _ _).mp hbe
    · intro hex
      rw [← isHeadingBlockB_iff] at hex
      rw [hhd] at hex
      exact Bool.false_ne_true hex
  · rintro ⟨hb, ha, hbe, hhd⟩
    refine ⟨hb, (afterStartB_iff _ _).mpr ha, ?_, ?_⟩
    · by_cases hn : i + 1 < headings.length
      · rw [List.get?_eq_get hn]
        exact (beforeEndB_some_iff _ _).mpr (hbe hn)
      · rw [List.get?_eq_none.mpr (by omega)]
        rfl
    · rw [← Bool.not_eq_true]
      intro hcon
      exact hhd ((isHeadingBlockB_iff _ _).mp hcon)

theorem C3_section_partitioning_witness :
    group_text_into_sections sampleBlocks [] = [] ∧
    (group_text_into_sections sampleBlocks
        (identify_and_classify_headings sampleBlocks 12).1).length =
      (identify_and_classify_headings sampleBlocks 12).1.length :=
  ⟨(C3_section_partitioning sampleBlocks []).1 sampleBlocks,
   ((C3_section_partitioning sampleBlocks
      (identify_and_classify_headings sampleBlocks 12).1).2 (by decide)).1⟩

/-! ### Claim C6: the worked example -/

/-- C6 counterexample: on the specification's worked-example fragment
list with body size 12 the classifier does not return the two headings
the specification expects, because the largest page-1 fragment
"1. Background" is selected as the title and skipped. -/
theorem C6_worked_example_counterexample :
    (identify_and_classify_headings sampleBlocks 12).1 ≠
      [⟨"H1", "1. Background", 1, 50⟩, ⟨"H2", "1.1 Detail", 1, 120⟩] := by decide

/-- C6 amended: on the worked-example fragment list with body size 12,
"1. Background" is selected as title (largest page-1 font) and skipped
from candidacy, so the classifier yields the single heading
(H1, "1.1 Detail", page 1, y 120) and the partitioner yields the single
section ("1.1 Detail", H1, page 1, content "more body"). -/
theorem C6_worked_example_amended :
    titleOf sampleBlocks = some ("1. Background", 1) ∧
    (identify_and_classify_headings sampleBlocks 12).1 =
      [⟨"H1", "1.1 Detail", 1, 120⟩] ∧
    group_text_into_sections sampleBlocks
        (identify_and_classify_headings sampleBlocks 12).1 =
      [⟨"1.1 Detail", "H1", 1, "more body"⟩] := by decide

/-! ### Claim C7: section coverage -/

theorem pLT_trans {p q r : Nat × ℤ} (h1 : pLT p q) (h2 : pLT q r) : pLT p r := by
  unfold pLT at h1 h2 ⊢
  rcases h1 with h1 | ⟨e1, l1⟩
  · rcases h2 with h2 | ⟨e2, l2⟩
    · exact Or.inl (lt_trans h1 h2)
    · exact Or.inl (e2 ▸ h1)
  · rcases h2 with h2 | ⟨e2, l2⟩
    · exact Or.inl (e1 ▸ h2)
    · exact Or.inr ⟨e1.trans e2, lt_trans l1 l2⟩

theorem pLT_of_pLT_of_pLE {p q r : Nat × ℤ} (h1 : pLT p q) (h2 : pLE q r) : pLT p r := by
  unfold pLT at h1 ⊢
  unfold pLE at h2
  rcases h1 with h1 | ⟨e1, l1⟩
  · rcases h2 with h2 | ⟨e2, l2⟩
    · exact Or.inl (lt_trans h1 h2)
    · exact Or.inl (e2 ▸ h1)
  · rcases h2 with h2 | ⟨e2, l2⟩
    · exact Or.inl (e1 ▸ h2)
    · exact Or.inr ⟨e1.trans e2, lt_of_lt_of_le l1 l2⟩

theorem pLT_irrefl (p : Nat × ℤ) : ¬ pLT p p := by
  unfold pLT
  rintro (h | ⟨_, h⟩) <;> exact absurd h (lt_irrefl _)

theorem pLT_asymm {p q : Nat × ℤ} (h1 : pLT p q) : ¬ pLT q p :=
  fun h2 => pLT_irrefl p (pLT_trans h1 h2)

theorem pLT_total (p q : Nat × ℤ) : pLT p q ∨ p = q ∨ pLT q p := by
  unfold pLT
  rcases Nat.lt_trichotomy p.1 q.1 with h | h | h
  · exact Or.inl (Or.inl h)
  · rcases lt_trichotomy p.2 q.2 with h2 | h2 | h2
    · exact Or.inl (Or.inr ⟨h, h2⟩)
    · exact Or.inr (Or.inl (Prod.ext h h2))
    · exact Or.inr (Or.inr (Or.inr ⟨h.symm, h2⟩))
  · exact Or.inr (Or.inr (Or.inl h))

theorem pLE_iff (p q : Nat × ℤ) : pLE p q ↔ pLT p q ∨ p = q := by
  unfold pLE pLT
  constructor
  · rintro (h | ⟨e, l⟩)
    · exact Or.inl (Or.inl h)
    · rcases lt_or_eq_of_le l with h2 | h2
      · exact Or.inl (Or.inr ⟨e, h2⟩)
      · exact Or.inr (Prod.ext e h2)
  · rintro ((h | ⟨e, l⟩) | rfl)
    · exact Or.inl h
    · exact Or.inr ⟨e, le_of_lt l⟩
    · exact Or.inr ⟨rfl, le_refl _⟩

theorem mem_sectionFragLists {blocks : List Fragment} {all : List Heading} :
    ∀ {hs : List Heading} {fr : List Fragment}, fr ∈ sectionFragLists blocks all hs →
      ∃ h ∈ hs, ∃ nxt, fr = sectionContentFrags blocks all h nxt := by
  intro hs
  induction hs with
  | nil => intro fr h; simp [sectionFragLists] at h
  | cons h rest ih =>
    intro fr hfr
    rcases List.mem_cons.mp hfr with rfl | hfr
    · exact ⟨h, List.mem_cons_self h rest, rest.head?, rfl⟩
    · obtain ⟨h2, hh2, nxt, heq⟩ := ih hfr
      exact ⟨h2, List.mem_cons_of_mem h hh2, nxt, heq⟩

theorem fragLists_disjoint (blocks : List Fragment) (all : List Heading) :
    ∀ hs : List Heading, List.Sorted hLE hs →
      List.Pairwise (fun fr1 fr2 => ∀ f : Fragment, f ∈ fr1 → f ∉ fr2)
        (sectionFragLists blocks all hs) := by
  intro hs
  induction hs with
  | nil => intro _; exact List.Pairwise.nil
  | cons h rest ih =>
    intro hsorted
    refine List.Pairwise.cons ?_ (ih hsorted.of_cons)
    intro fr2 hfr2 f hf1 hf2
    obtain ⟨h2, hh2, nxt2, rfl⟩ := mem_sectionFragLists hfr2
    have hbe := ((mem_sectionContentFrags blocks all h rest.head? f).mp hf1).2.2.1
    have has := ((mem_sectionContentFrags blocks all h2 nxt2 f).mp hf2).2.1
    match rest, hh2 with
    | r0 :: rest2, hh2 =>
      have hbe2 : pLT (f.page, f.y_pos) (hKey r0) := by
        rw [show (r0 :: rest2).head? = some r0 from rfl] at hbe
        exact (beforeEndB_some_iff _ _).mp hbe
      have hle : pLE (hKey r0) (hKey h2) := by
        rcases List.mem_cons.mp hh2 with rfl | hh2
        · rw [pLE_iff]
          exact Or.inr rfl
        · exact List.rel_of_sorted_cons hsorted.of_cons h2 hh2
      have has2 : pLT (hKey h2) (f.page, f.y_pos) := (afterStartB_iff _ _).mp has
      exact pLT_asymm (pLT_of_pLT_of_pLE hbe2 hle) has2

theorem sections_content_eq (blocks : List Fragment) (all : List Heading) :
    ∀ hs : List Heading, (sectionsAux blocks all hs).map Section.content =
      (sectionFragLists blocks all hs).map
        (fun fr => String.intercalate "\n" (fr.map Fragment.text)) := by
  intro hs
  induction hs with
  | nil => rfl
  | cons h rest ih => simp [sectionsAux, sectionFragLists, sectionFor, ih]

theorem cover_aux (blocks : List Fragment) (all : List Heading) :
    ∀ (hs : List Heading) (f : Fragment), List.Sorted hLE hs → f ∈ blocks →
      (¬ ∃ h ∈ all, h.text = f.text ∧ h.page = f.page) →
      (∀ h ∈ hs, hKey h ≠ (f.page, f.y_pos)) →
      (∀ h0, hs.head? = some h0 → pLT (hKey h0) (f.page, f.y_pos)) →
      hs ≠ [] →
      ∃ fr ∈ sectionFragLists blocks all hs, f ∈ fr := by
  intro hs
  induction hs with
  | nil => intro f _ _ _ _ _ hne; exact absurd rfl hne
  | cons h1 rest ih =>
    intro f hsorted hf hnm hnp hhead _
    have hlt1 : pLT (hKey h1) (f.page, f.y_pos) := hhead h1 rfl
    have hnotmatch : isHeadingBlockB all f = false := by
      rw [← Bool.not_eq_true]
      intro hcon
      exact hnm ((isHeadingBlockB_iff _ _).mp hcon)
    match rest with
    | [] =>
      refine ⟨sectionContentFrags blocks all h1 none, List.mem_cons_self _ _, ?_⟩
      rw [mem_sectionContentFrags]
      exact ⟨hf, (afterStartB_iff _ _).mpr hlt1, rfl, hnotmatch⟩
    | h2 :: rest2 =>
      by_cases hcase : pLT (f.page, f.y_pos) (hKey h2)
      · refine ⟨sectionContentFrags blocks all h1 (h2 :: rest2).head?,
          List.mem_cons_self _ _, ?_⟩
        rw [mem_sectionContentFrags]
        refine ⟨hf, (afterStartB_iff _ _).mpr hlt1, ?_, hnotmatch⟩
        rw [show (h2 :: rest2).head? = some h2 from rfl]
        exact (beforeEndB_some_iff _ _).mpr hcase
      · have hlt2 : pLT (hKey h2) (f.page, f.y_pos) := by
          rcases pLT_total (f.page, f.y_pos) (hKey h2) with hc | hc | hc
          · exact absurd hc hcase
          · exact absurd hc.symm (hnp h2 (List.mem_cons_of_mem h1 (List.mem_cons_self _ _)))
          · exact hc
        obtain ⟨fr, hfr, hffr⟩ := ih f hsorted.of_cons hf hnm
          (fun h hh => hnp h (List.mem_cons_of_mem h1 hh))
          (by
            intro h0 hh0
            have : h0 = h2 := by
              rw [show (h2 :: rest2).head? = some h2 from rfl] at hh0
              exact (Option.some_inj.mp hh0).symm
            rw [this]
            exact hlt2)
          (by simp)
        exact ⟨fr, List.mem_cons_of_mem _ hfr, hffr⟩

/-- C7 amended: for the derived nonempty heading list, sections are
pairwise non-overlapping over the fragment stream and the section
contents of the output are the newline joins of the per-section
fragment lists; every fragment at or after the first heading's
`(page, y_pos)` position is covered by the heading set (by exact
`(text, page)` match) or by some section, except a fragment that shares
the exact `(page, y_pos)` of one of the headings without being one —
the strict window bounds drop such a fragment, which is the only
correction to the claimed invariant. -/
theorem C7_section_coverage_amended (blocks : List Fragment) :
    ∀ h0, (identify_and_classify_headings blocks (get_body_text_style blocks).1).1.head? =
        some h0 →
      List.Pairwise (fun fr1 fr2 => ∀ f : Fragment, f ∈ fr1 → f ∉ fr2)
        (sectionFragLists blocks
          (identify_and_classify_headings blocks (get_body_text_style blocks).1).1
          (identify_and_classify_headings blocks (get_body_text_style blocks).1).1) ∧
      ((group_text_into_sections blocks
          (identify_and_classify_headings blocks (get_body_text_style blocks).1).1).map
            Section.content =
        (sectionFragLists blocks
          (identify_and_classify_headings blocks (get_body_text_style blocks).1).1
          (identify_and_classify_headings blocks (get_body_text_style blocks).1).1).map
            (fun fr => String.intercalate "\n" (fr.map Fragment.text))) ∧
      (∀ f ∈ blocks, pLE (hKey h0) (f.page, f.y_pos) →
        (∃ h ∈ (identify_and_classify_headings blocks (get_body_text_style blocks).1).1,
          h.text = f.text ∧ h.page = f.page) ∨
        (∃ h ∈ (identify_and_classify_headings blocks (get_body_text_style blocks).1).1,
          h.page = f.page ∧ h.y_pos = f.y_pos) ∨
        (∃ fr ∈ sectionFragLists blocks
            (identify_and_classify_headings blocks (get_body_text_style blocks).1).1
            (identify_and_classify_headings blocks (get_body_text_style blocks).1).1,
          f ∈ fr)) := by
  intro h0 hh0
  have hne : (identify_and_classify_headings blocks (get_body_text_style blocks).1).1 ≠ [] := by
    intro hcon
    rw [hcon] at hh0
    exact absurd hh0 (by simp)
  have hsorted := headings_sorted blocks (get_body_text_style blocks).1
  refine ⟨fragLists_disjoint blocks _ _ hsorted, ?_, ?_⟩
  · rw [group_eq_aux blocks hne]
    exact sections_content_eq blocks _ _
  · intro f hf hple
    by_cases hmatch : ∃ h ∈ (identify_and_classify_headings blocks
        (get_body_text_style blocks).1).1, h.text = f.text ∧ h.page = f.page
    · exact Or.inl hmatch
    · by_cases hpos : ∃ h ∈ (identify_and_classify_headings blocks
          (get_body_text_style blocks).1).1, h.page = f.page ∧ h.y_pos = f.y_pos
      · exact Or.inr (Or.inl hpos)
      · refine Or.inr (Or.inr ?_)
        have hlt : pLT (hKey h0) (f.page, f.y_pos) := by
          rcases (pLE_iff _ _).mp hple with h | h
          · exact h
          · exfalso
            have hmem : h0 ∈ (identify_and_classify_headings blocks
                (get_body_text_style blocks).1).1 := by
              match hx : (identify_and_classify_headings blocks
                  (get_body_text_style blocks).1).1, hh0 with
              | a :: t, hh0 =>
                have ha : a = h0 := Option.some_inj.mp hh0
                rw [← ha]
                exact List.mem_cons_self a t
            exact hpos ⟨h0, hmem, congrArg Prod.fst h, congrArg Prod.snd h⟩
        apply cover_aux blocks _ _ f hsorted hf hmatch
        · intro h hh hcon
          exact hpos ⟨h, hh, congrArg Prod.fst hcon, congrArg Prod.snd hcon⟩
        · intro h1 hh1
          rw [hh0] at hh1
          have : h1 = h0 := (Option.some_inj.mp hh1).symm
          rw [this]
          exact hlt
        · exact hne

/-- C7 counterexample: the claimed coverage fails as stated — the
fragment "stray" occurs on the first heading's position, matches no
heading's `(text, page)` pair, and belongs to no section's content. -/
theorem C7_section_coverage_counterexample :
    (identify_and_classify_headings cex7 (get_body_text_style cex7).1).1 =
      [⟨"H1", "1. Heading", 1, 10⟩] ∧
    (⟨"stray", 10, "Helv", 1, 10⟩ : Fragment) ∈ cex7 ∧
    pLE (hKey ⟨"H1", "1. Heading", 1, 10⟩) (1, 10) ∧
    ¬ ((∃ h ∈ ([⟨"H1", "1. Heading", 1, 10⟩] : List Heading),
          h.text = "stray" ∧ h.page = 1) ∨
       (∃ fr ∈ sectionFragLists cex7 [⟨"H1", "1. Heading", 1, 10⟩]
          [⟨"H1", "1. Heading", 1, 10⟩],
         (⟨"stray", 10, "Helv", 1, 10⟩ : Fragment) ∈ fr)) := by decide

theorem C7_section_coverage_amended_witness :
    ∃ h0, (identify_and_classify_headings cex7 (get_body_text_style cex7).1).1.head? =
        some h0 ∧
      List.Pairwise (fun fr1 fr2 => ∀ f : Fragment, f ∈ fr1 → f ∉ fr2)
        (sectionFragLists cex7
          (identify_and_classify_headings cex7 (get_body_text_style cex7).1).1
          (identify_and_classify_headings cex7 (get_body_text_style cex7).1).1) ∧
      ((⟨"ten", 10, "Helv", 1, 20⟩ : Fragment) ∈ cex7 →
        pLE (hKey ⟨"H1", "1. Heading", 1, 10⟩) (1, 20) →
        (∃ h ∈ (identify_and_classify_headings cex7 (get_body_text_style cex7).1).1,
          h.text = "ten" ∧ h.page = 1) ∨
        (∃ h ∈ (identify_and_classify_headings cex7 (get_body_text_style cex7).1).1,
          h.page = 1 ∧ h.y_pos = 20) ∨
        (∃ fr ∈ sectionFragLists cex7
            (identify_and_classify_headings cex7 (get_body_text_style cex7).1).1
            (identify_and_classify_headings cex7 (get_body_text_style cex7).1).1,
          (⟨"ten", 10, "Helv", 1, 20⟩ : Fragment) ∈ fr)) :=
  ⟨⟨"H1", "1. Heading", 1, 10⟩, by decide,
    (C7_section_coverage_amended cex7 ⟨"H1", "1. Heading", 1, 10⟩ (by decide)).1,
    fun hm hple => (C7_section_coverage_amended cex7 ⟨"H1", "1. Heading", 1, 10⟩
      (by decide)).2.2 _ hm hple⟩

theorem C8_result_shapes_witness :
    generate_outline_from_pdf (OpenResult.failed "bad xref") =
      OutlineResult.error "Could not open PDF: bad xref" ∧
    containsSeq "bad xref".data "Could not open PDF: bad xref".data = true ∧
    ∃ t o s, generate_outline_from_pdf (OpenResult.ok sampleBlocks) =
      OutlineResult.success t o s :=
  ⟨(C8_result_shapes.1 "bad xref").1,
   (C8_result_shapes.1 "bad xref").2,
   C8_result_shapes.2.2 sampleBlocks (by decide)⟩

end PdfOutline
